import Mathlib

/-!
Shallow embedding of the citation-graph engine of paper_explorer.py:
the paper store (papers_db), the edge set (edges), the upsert
(add_paper_to_db), the ingestion engine (process_main_paper), the
projection (paper_to_dict), the statistics endpoint, and the clear
endpoint.  Python dictionaries become association lists keyed by the
paper identifier; Python sets of canonical tuples become duplicate-free
lists; KeyError on a dictionary access becomes an explicit crashed flag
that aborts the loop while keeping the mutations already performed.
-/

namespace PaperExplorer

/-- A stored paper record (the Paper dataclass). -/
structure Paper where
  paper_id : String
  title : String
  authors : List String
  year : Option Int
  publication_date : Option String
  citation_count : Int
  url : String
  references : List String
  citations : List String
  edge_count : Nat
  is_main : Bool
deriving Repr, DecidableEq

/-- The metadata fields of one provider payload record, as read by
add_paper_to_db: each field may be absent. -/
structure PaperMeta where
  paperId : Option String
  title : Option String
  authors : List (Option String)
  year : Option Int
  publicationDate : Option String
  citationCount : Option Int
  url : Option String
deriving Repr, DecidableEq

/-- A full provider payload for a root fetch: the metadata of the root
plus the reference list and the citation list, whose entries carry the
same metadata shape. -/
structure PaperData where
  meta : PaperMeta
  references : List PaperMeta
  citations : List PaperMeta
deriving Repr, DecidableEq

/-- Python truthiness of an optional string: falsy when absent or empty. -/
def strFalsy : Option String → Bool
  | none => true
  | some s => s == ""

/-- The default Semantic Scholar url built from the identifier. -/
def defaultUrl (pid : String) : String :=
  "https://www.semanticscholar.org/paper/" ++ pid

/-- The Paper record built by add_paper_to_db from a payload record. -/
def mkPaper (d : PaperMeta) (pid : String) (is_main : Bool) : Paper :=
  { paper_id := pid
    title := d.title.getD "Unknown Title"
    authors := (d.authors.map (fun a => a.getD "Unknown")).take 5
    year := d.year
    publication_date := d.publicationDate
    citation_count := d.citationCount.getD 0
    url := match d.url with
      | none => defaultUrl pid
      | some u => if u = "" then defaultUrl pid else u
    references := []
    citations := []
    edge_count := 0
    is_main := is_main }

/-- Lookup in the association list modelling the papers_db dictionary. -/
def dbFind (db : List (String × Paper)) (pid : String) : Option Paper :=
  match db with
  | [] => none
  | (k, p) :: rest => if k = pid then some p else dbFind rest pid

/-- Update the first entry with the given key (the only one, since keys
are unique by construction), modelling in-place mutation of the stored
record. -/
def dbUpdate (db : List (String × Paper)) (pid : String) (f : Paper → Paper) :
    List (String × Paper) :=
  match db with
  | [] => []
  | (k, p) :: rest =>
      if k = pid then (k, f p) :: rest else (k, p) :: dbUpdate rest pid f

/-- add_paper_to_db: returns the stored record (None when the payload
carries no identifier) together with the new store. -/
def add_paper_to_db (db : List (String × Paper)) (paper_data : PaperMeta)
    (is_main : Bool) : Option Paper × List (String × Paper) :=
  match paper_data.paperId with
  | none => (none, db)
  | some pid =>
    if pid = "" then (none, db)
    else
      match dbFind db pid with
      | some existing =>
          if is_main then
            (some { existing with is_main := true },
             dbUpdate db pid (fun p => { p with is_main := true }))
          else (some existing, db)
      | none =>
          let paper := mkPaper paper_data pid is_main
          (some paper, db ++ [(pid, paper)])

/-- tuple(sorted([a, b])): the canonical form of an unordered pair,
compared by code points as Python compares strings. -/
def sortPair (a b : String) : String × String :=
  if b.data < a.data then (b, a) else (a, b)

/-- The whole in-memory graph state: papers_db and edges. -/
structure GraphState where
  papers_db : List (String × Paper)
  edges : List (String × String)
deriving Repr, DecidableEq

def emptyState : GraphState := ⟨[], []⟩

/-- The projection returned by paper_to_dict. -/
structure PaperDict where
  paper_id : String
  title : String
  authors : List String
  year : Option Int
  publication_date : Option String
  citation_count : Int
  url : String
  edge_count : Nat
  is_main : Bool
  reference_count : Nat
  citing_count : Nat
deriving Repr, DecidableEq

def paper_to_dict (p : Paper) : PaperDict :=
  { paper_id := p.paper_id
    title := p.title
    authors := p.authors
    year := p.year
    publication_date := p.publication_date
    citation_count := p.citation_count
    url := p.url
    edge_count := p.edge_count
    is_main := p.is_main
    reference_count := p.references.length
    citing_count := p.citations.length }

/-- The result dictionary built by process_main_paper. -/
structure IngestResult where
  success : Bool
  message : String
  paper : Option PaperDict
  new_papers : Nat
  new_edges : Nat
deriving Repr, DecidableEq

/-- The outcome of one call: a returned result, or an uncaught KeyError
raised by a dictionary access on a missing key. -/
inductive Outcome where
  | ok (r : IngestResult)
  | keyError
deriving Repr, DecidableEq

/-- The mutable locals of the reference/citation loops of
process_main_paper. -/
structure LoopSt where
  db : List (String × Paper)
  edges : List (String × String)
  new_papers : Nat
  new_edges : Nat
  crashed : Bool
deriving Repr, DecidableEq

/-- Increment the connectivity counter of one record. -/
def bump1 (p : Paper) : Paper := { p with edge_count := p.edge_count + 1 }

/-- papers_db[pid].edge_count += 1, which raises KeyError (modelled as
none) when pid is not a key. -/
def bumpEdge (db : List (String × Paper)) (pid : String) :
    Option (List (String × Paper)) :=
  match dbFind db pid with
  | none => none
  | some _ => some (dbUpdate db pid bump1)

/-- The identifier of a payload entry if it is usable (present and
non-empty), as tested by the loops of process_main_paper. -/
def validId : Option String → Option String
  | none => none
  | some s => if s = "" then none else some s

/-- main_paper.references.append(eid) or main_paper.citations.append(eid):
append the neighbor identifier to the corresponding sequence of the
stored root record. -/
def appendId (mainPid : String) (isRef : Bool) (eid : String)
    (db : List (String × Paper)) : List (String × Paper) :=
  dbUpdate db mainPid (fun p =>
    if isRef then { p with references := p.references ++ [eid] }
    else { p with citations := p.citations ++ [eid] })

/-- Add the neighbor to the store when its identifier is unknown, in
which case it counts as a new paper. -/
def upsertNeighbor (eid : String) (entry : PaperMeta)
    (db : List (String × Paper)) (np : Nat) : List (String × Paper) × Nat :=
  match dbFind db eid with
  | some _ => (db, np)
  | none => ((add_paper_to_db db entry false).2, np + 1)

/-- The edge step: canonicalize, test membership, and on a new edge
insert it, count it, and bump the two endpoint counters (a missing
endpoint key raises KeyError, reported in the final component). -/
def addEdgeStep (paper_id eid : String) (db : List (String × Paper))
    (edges : List (String × String)) (ne : Nat) :
    List (String × Paper) × List (String × String) × Nat × Bool :=
  let e := sortPair paper_id eid
  if e ∈ edges then (db, edges, ne, false)
  else
    let edges2 := edges ++ [e]
    match bumpEdge db paper_id with
    | none => (db, edges2, ne + 1, true)
    | some db3 =>
        match bumpEdge db3 eid with
        | none => (db3, edges2, ne + 1, true)
        | some db4 => (db4, edges2, ne + 1, false)

/-- One iteration of the reference loop (isRef = true) or the citation
loop (isRef = false) of process_main_paper. -/
def processEntry (paper_id mainPid : String) (isRef : Bool)
    (s : LoopSt) (entry : PaperMeta) : LoopSt :=
  if s.crashed then s else
  match validId entry.paperId with
  | none => s
  | some eid =>
      let db1 := appendId mainPid isRef eid s.db
      let r2 := upsertNeighbor eid entry db1 s.new_papers
      let r3 := addEdgeStep paper_id eid r2.1 s.edges s.new_edges
      { db := r3.1, edges := r3.2.1, new_papers := r2.2,
        new_edges := r3.2.2.1, crashed := r3.2.2.2 }

/-- The part of process_main_paper after the already-added check: fetch,
upsert of the root, the two neighbor loops, and the result. -/
def process_fetch (st : GraphState) (paper_id : String)
    (fetched : Option PaperData) : GraphState × Outcome :=
  match fetched with
  | none =>
      (st, Outcome.ok
        { success := false
          message := "Failed to fetch paper from Semantic Scholar"
          paper := none
          new_papers := 0
          new_edges := 0 })
  | some paper_data =>
    match add_paper_to_db st.papers_db paper_data.meta true with
    | (none, db0) =>
        ({ st with papers_db := db0 }, Outcome.ok
          { success := false
            message := "Failed to process paper data"
            paper := none
            new_papers := 0
            new_edges := 0 })
    | (some main_paper, db0) =>
        let mainPid := main_paper.paper_id
        let s0 : LoopSt := ⟨db0, st.edges, 0, 0, false⟩
        let s1 := paper_data.references.foldl (processEntry paper_id mainPid true) s0
        let s2 := paper_data.citations.foldl (processEntry paper_id mainPid false) s1
        let st' : GraphState := ⟨s2.db, s2.edges⟩
        if s2.crashed then (st', Outcome.keyError)
        else
          (st', Outcome.ok
            { success := true
              message := "Added paper with " ++ toString paper_data.references.length
                ++ " references and " ++ toString paper_data.citations.length ++ " citations"
              paper := (dbFind s2.db mainPid).map paper_to_dict
              new_papers := s2.new_papers
              new_edges := s2.new_edges })

/-- process_main_paper: the ingestion engine.  The provider fetch is
passed in as the response the provider would give for this call. -/
def process_main_paper (st : GraphState) (paper_id : String)
    (fetched : Option PaperData) : GraphState × Outcome :=
  match dbFind st.papers_db paper_id with
  | some p0 =>
      if p0.is_main then
        (st, Outcome.ok
          { success := false
            message := "Paper already added"
            paper := some (paper_to_dict p0)
            new_papers := 0
            new_edges := 0 })
      else process_fetch st paper_id fetched
  | none => process_fetch st paper_id fetched

/-- The /api/clear endpoint: empty both containers. -/
def api_clear (_st : GraphState) : GraphState := emptyState

/-- The aggregate statistics of the /api/papers endpoint. -/
structure Stats where
  total_papers : Nat
  main_papers : Nat
  total_edges : Nat
deriving Repr, DecidableEq

def stats (st : GraphState) : Stats :=
  { total_papers := st.papers_db.length
    main_papers := st.papers_db.countP (fun kp => kp.2.is_main)
    total_edges := st.edges.length }

/-- Degree of an identifier: the number of entries of the edge set that
contain it. -/
def degree (edges : List (String × String)) (pid : String) : Nat :=
  (edges.filter (fun e => e.1 == pid || e.2 == pid)).length

/-- Edge-set membership of an unordered pair, as the engine tests it:
canonicalize, then member. -/
def edgeContains (edges : List (String × String)) (a b : String) : Bool :=
  edges.contains (sortPair a b)

/-- States reachable from the empty state by any sequence of ingest and
reset operations, with arbitrary provider responses. -/
inductive Reachable : GraphState → Prop where
  | init : Reachable emptyState
  | ingest (st : GraphState) (pid : String) (fetched : Option PaperData) :
      Reachable st → Reachable (process_main_paper st pid fetched).1
  | clear (st : GraphState) : Reachable st → Reachable (api_clear st)

/-- A provider response is benign for a requested identifier when the
payload (if any) carries that identifier as its own (or no usable
identifier at all), and no reference or citation entry carries the
requested identifier itself. -/
def goodFetch (paper_id : String) (fetched : Option PaperData) : Prop :=
  match fetched with
  | none => True
  | some pd =>
      (pd.meta.paperId = some paper_id ∨ strFalsy pd.meta.paperId = true) ∧
      (∀ r ∈ pd.references, r.paperId ≠ some paper_id) ∧
      (∀ c ∈ pd.citations, c.paperId ≠ some paper_id)

instance (paper_id : String) (fetched : Option PaperData) :
    Decidable (goodFetch paper_id fetched) := by
  unfold goodFetch
  cases fetched with
  | none => exact inferInstanceAs (Decidable True)
  | some pd => exact inferInstanceAs (Decidable (_ ∧ _ ∧ _))

/-- States reachable using only benign provider responses. -/
inductive ReachableGood : GraphState → Prop where
  | init : ReachableGood emptyState
  | ingest (st : GraphState) (pid : String) (fetched : Option PaperData) :
      ReachableGood st → goodFetch pid fetched →
      ReachableGood (process_main_paper st pid fetched).1
  | clear (st : GraphState) : ReachableGood st → ReachableGood (api_clear st)

/-- The usable identifiers of a payload list, in order. -/
def entryIds (l : List PaperMeta) : List String :=
  l.filterMap (fun e => validId e.paperId)

/-- How many elements of l are counted as new against an initial seen
collection, each element counted at most once: the counting discipline
shared by new_papers (against store keys) and new_edges (against the
edge set). -/
def countNew {α : Type} [DecidableEq α] : List α → List α → Nat
  | [], _ => 0
  | x :: rest, seen =>
      if x ∈ seen then countNew rest seen else countNew rest (x :: seen) + 1

/-- The ways a stored record is allowed to change after creation:
identity and content fields frozen, is_main only flips to true,
edge_count only grows, the two identifier sequences only receive
appends. -/
def Evolves (p q : Paper) : Prop :=
  q.paper_id = p.paper_id ∧ q.title = p.title ∧ q.authors = p.authors ∧
  q.year = p.year ∧ q.publication_date = p.publication_date ∧
  q.citation_count = p.citation_count ∧ q.url = p.url ∧
  (p.is_main = true → q.is_main = true) ∧
  p.edge_count ≤ q.edge_count ∧
  (∃ t, q.references = p.references ++ t) ∧
  (∃ t, q.citations = p.citations ++ t)

/-- Store well-formedness: keys are unique and each record carries its
own key as paper_id. -/
def StoreWF (st : GraphState) : Prop :=
  (st.papers_db.map Prod.fst).Nodup ∧ ∀ kp ∈ st.papers_db, kp.2.paper_id = kp.1

/-- Edge-set well-formedness: no duplicates and every entry is in
canonical sorted form. -/
def EdgesWF (st : GraphState) : Prop :=
  st.edges.Nodup ∧ ∀ e ∈ st.edges, sortPair e.1 e.2 = e

/-- The loop invariant behind counter consistency: well-formed store and
edge set, every edge endpoint backed by a record, every counter equal to
the degree, and the requested root present. -/
def LoopInv (paper_id : String) (s : LoopSt) : Prop :=
  (s.db.map Prod.fst).Nodup ∧
  (∀ k p, dbFind s.db k = some p → p.paper_id = k) ∧
  s.edges.Nodup ∧
  (∀ e ∈ s.edges, e.1 ∈ s.db.map Prod.fst ∧ e.2 ∈ s.db.map Prod.fst) ∧
  (∀ k p, dbFind s.db k = some p → p.edge_count = degree s.edges k) ∧
  paper_id ∈ s.db.map Prod.fst

/-- The state-level invariant established on benign runs. -/
def Inv (st : GraphState) : Prop :=
  (st.papers_db.map Prod.fst).Nodup ∧
  (∀ k p, dbFind st.papers_db k = some p → p.paper_id = k) ∧
  st.edges.Nodup ∧
  (∀ e ∈ st.edges, e.1 ∈ st.papers_db.map Prod.fst ∧ e.2 ∈ st.papers_db.map Prod.fst) ∧
  (∀ k p, dbFind st.papers_db k = some p → p.edge_count = degree st.edges k)

/-! ### Concrete payloads and states used by scenario theorems -/

/-- A sample payload record carrying the given identifier. -/
def sampleMeta (pid : String) : PaperMeta :=
  { paperId := some pid
    title := some ("Title " ++ pid)
    authors := [some "Author One"]
    year := some 2020
    publicationDate := some "2020-01-02"
    citationCount := some 7
    url := none }

/-- Root R with references [A, B] and citations [B, C]. -/
def pdC7 : PaperData :=
  { meta := sampleMeta "R"
    references := [sampleMeta "A", sampleMeta "B"]
    citations := [sampleMeta "B", sampleMeta "C"] }

def stC7 : GraphState := (process_main_paper emptyState "R" (some pdC7)).1

/-- Root R whose reference list contains R itself. -/
def pdSelf : PaperData :=
  { meta := sampleMeta "R", references := [sampleMeta "R"], citations := [] }

def stSelf : GraphState := (process_main_paper emptyState "R" (some pdSelf)).1

/-- A minimal root payload with no neighbors. -/
def pdPlain (pid : String) : PaperData :=
  { meta := sampleMeta pid, references := [], citations := [] }

/-- A state in which R is already stored as a main paper. -/
def stMainR : GraphState := (process_main_paper emptyState "R" (some (pdPlain "R"))).1

/-- Root A with reference B, used after stC7 to show a stored record
gaining list entries. -/
def pdA : PaperData :=
  { meta := sampleMeta "A", references := [sampleMeta "B2"], citations := [] }

def stC4a : GraphState := (process_main_paper emptyState "R" (some pdC7)).1

def stC4b : GraphState := (process_main_paper stC4a "A" (some pdA)).1

/-- The result carried by a normal return. -/
def okResult : Outcome → Option IngestResult
  | Outcome.ok r => some r
  | Outcome.keyError => none

/-- The same payload with every reference and citation entry carrying
the given identifier removed. -/
def removeId (n : String) (pd : PaperData) : PaperData :=
  { meta := pd.meta
    references := pd.references.filter (fun e => e.paperId != some n)
    citations := pd.citations.filter (fun e => e.paperId != some n) }

/-- Root R whose reference list and citation list both contain B. -/
def pdC8 : PaperData :=
  { meta := sampleMeta "R"
    references := [sampleMeta "B"]
    citations := [sampleMeta "B"] }

/-- Root R whose reference list contains B twice. -/
def pdC10 : PaperData :=
  { meta := sampleMeta "R"
    references := [sampleMeta "B", sampleMeta "B"]
    citations := [] }

/-! ### Basic lemmas about the store primitives -/

theorem dbFind_eq_none_iff (db : List (String × Paper)) (pid : String) :
    dbFind db pid = none ↔ pid ∉ db.map Prod.fst := by
  induction db with
  | nil => simp [dbFind]
  | cons kp rest ih =>
      obtain ⟨k, p⟩ := kp
      by_cases h : k = pid
      · subst h; simp [dbFind]
      · simp [dbFind, h, ih, Ne.symm h]

theorem dbFind_isSome_iff (db : List (String × Paper)) (pid : String) :
    (dbFind db pid).isSome ↔ pid ∈ db.map Prod.fst := by
  rw [Option.isSome_iff_ne_none, ne_eq, dbFind_eq_none_iff]
  tauto

theorem mem_of_dbFind_eq_some {db : List (String × Paper)} {pid : String}
    {p : Paper} (h : dbFind db pid = some p) : pid ∈ db.map Prod.fst := by
  rw [← dbFind_isSome_iff, h]; rfl

theorem dbFind_append (db1 db2 : List (String × Paper)) (pid : String) :
    dbFind (db1 ++ db2) pid =
      match dbFind db1 pid with
      | some p => some p
      | none => dbFind db2 pid := by
  induction db1 with
  | nil => simp [dbFind]
  | cons kp rest ih =>
      obtain ⟨k, p⟩ := kp
      by_cases h : k = pid
      · subst h; simp [dbFind]
      · simp [dbFind, h, ih]

theorem dbUpdate_keys (db : List (String × Paper)) (pid : String)
    (f : Paper → Paper) : (dbUpdate db pid f).map Prod.fst = db.map Prod.fst := by
  induction db with
  | nil => rfl
  | cons kp rest ih =>
      obtain ⟨k, p⟩ := kp
      by_cases h : k = pid
      · subst h; simp [dbUpdate]
      · simp [dbUpdate, h, ih]

theorem dbFind_dbUpdate (db : List (String × Paper)) (pid : String)
    (f : Paper → Paper) (k : String) :
    dbFind (dbUpdate db pid f) k =
      if k = pid then (dbFind db pid).map f else dbFind db k := by
  induction db with
  | nil => by_cases h : k = pid <;> simp [dbUpdate, dbFind, h]
  | cons kq rest ih =>
      obtain ⟨q, pq⟩ := kq
      by_cases hq : q = pid
      · subst hq
        by_cases hk : k = q
        · subst hk; simp [dbUpdate, dbFind]
        · simp [dbUpdate, dbFind, hk, Ne.symm hk]
      · by_cases hk : q = k
        · subst hk
          simp [dbUpdate, dbFind, hq, Ne.symm hq]
        · simp [dbUpdate, dbFind, hq, hk, ih]

theorem dbUpdate_not_mem (db : List (String × Paper)) (pid : String)
    (f : Paper → Paper) (h : pid ∉ db.map Prod.fst) : dbUpdate db pid f = db := by
  induction db with
  | nil => rfl
  | cons kp rest ih =>
      obtain ⟨k, p⟩ := kp
      simp only [List.map_cons, List.mem_cons, not_or] at h
      have hk : k ≠ pid := fun he => h.1 he.symm
      simp [dbUpdate, hk, ih h.2]

theorem bumpEdge_of_mem {db : List (String × Paper)} {pid : String}
    (h : pid ∈ db.map Prod.fst) :
    bumpEdge db pid = some (dbUpdate db pid bump1) := by
  rw [← dbFind_isSome_iff] at h
  unfold bumpEdge
  cases hf : dbFind db pid with
  | none => rw [hf] at h; simp at h
  | some p => rfl

theorem bumpEdge_of_not_mem {db : List (String × Paper)} {pid : String}
    (h : pid ∉ db.map Prod.fst) : bumpEdge db pid = none := by
  rw [← dbFind_eq_none_iff] at h
  unfold bumpEdge
  rw [h]

/-! ### Lemmas about the canonical pair -/

theorem sortPair_eq_min_max (a b : String) : sortPair a b = (min a b, max a b) := by
  unfold sortPair
  rcases lt_or_ge b a with h | h
  · rw [if_pos (show b.data < a.data from String.lt_iff_toList_lt.mp h),
      min_comm, min_eq_left h.le, max_comm, max_eq_right h.le]
  · rw [if_neg (show ¬b.data < a.data from
        fun hc => not_lt.mpr h (String.lt_iff_toList_lt.mpr hc)),
      min_eq_left h, max_eq_right h]

theorem sortPair_comm (a b : String) : sortPair a b = sortPair b a := by
  rw [sortPair_eq_min_max, sortPair_eq_min_max, min_comm, max_comm]

theorem sortPair_canonical (a b : String) :
    sortPair (sortPair a b).1 (sortPair a b).2 = sortPair a b := by
  rw [sortPair_eq_min_max, sortPair_eq_min_max]
  simp [min_le_max, min_eq_left, max_eq_right]

theorem sortPair_fst_ne_snd {a b : String} (h : a ≠ b) :
    (sortPair a b).1 ≠ (sortPair a b).2 := by
  rw [sortPair_eq_min_max]
  simp only [ne_eq]
  intro hmm
  rcases le_total a b with hab | hab
  · rw [min_eq_left hab, max_eq_right hab] at hmm; exact h hmm
  · rw [min_eq_right hab, max_eq_left hab] at hmm; exact h hmm.symm

theorem validId_eq_some {o : Option String} {i : String}
    (h : validId o = some i) : o = some i ∧ i ≠ "" := by
  cases o with
  | none => simp [validId] at h
  | some s =>
      by_cases hs : s = ""
      · simp [validId, hs] at h
      · simp only [validId, if_neg hs, Option.some.injEq] at h
        subst h; exact ⟨rfl, hs⟩

/-! ### Lemmas about the loop pieces -/

theorem appendId_keys (mainPid : String) (isRef : Bool) (eid : String)
    (db : List (String × Paper)) :
    (appendId mainPid isRef eid db).map Prod.fst = db.map Prod.fst :=
  dbUpdate_keys db mainPid _

theorem dbFind_appendId (mainPid : String) (isRef : Bool) (eid : String)
    (db : List (String × Paper)) (k : String) :
    dbFind (appendId mainPid isRef eid db) k =
      if k = mainPid then
        (dbFind db mainPid).map (fun p =>
          if isRef then { p with references := p.references ++ [eid] }
          else { p with citations := p.citations ++ [eid] })
      else dbFind db k :=
  dbFind_dbUpdate db mainPid _ k

theorem upsertNeighbor_of_mem {eid : String} {db : List (String × Paper)}
    (entry : PaperMeta) (np : Nat) (h : eid ∈ db.map Prod.fst) :
    upsertNeighbor eid entry db np = (db, np) := by
  rw [← dbFind_isSome_iff] at h
  unfold upsertNeighbor
  cases hf : dbFind db eid with
  | none => rw [hf] at h; simp at h
  | some p => rfl

theorem upsertNeighbor_of_not_mem {eid : String} {db : List (String × Paper)}
    {entry : PaperMeta} (np : Nat) (h : eid ∉ db.map Prod.fst)
    (hid : entry.paperId = some eid) (hne : eid ≠ "") :
    upsertNeighbor eid entry db np =
      (db ++ [(eid, mkPaper entry eid false)], np + 1) := by
  rw [← dbFind_eq_none_iff] at h
  unfold upsertNeighbor
  rw [h]
  unfold add_paper_to_db
  rw [hid]
  simp only [if_neg hne, h]

theorem addEdgeStep_of_mem {paper_id eid : String}
    (db : List (String × Paper)) {edges : List (String × String)} (ne : Nat)
    (h : sortPair paper_id eid ∈ edges) :
    addEdgeStep paper_id eid db edges ne = (db, edges, ne, false) := by
  simp only [addEdgeStep, if_pos h]

theorem addEdgeStep_of_not_mem {paper_id eid : String}
    {db : List (String × Paper)} {edges : List (String × String)} (ne : Nat)
    (h : sortPair paper_id eid ∉ edges)
    (h1 : paper_id ∈ db.map Prod.fst) (h2 : eid ∈ db.map Prod.fst) :
    addEdgeStep paper_id eid db edges ne =
      (dbUpdate (dbUpdate db paper_id bump1) eid bump1,
       edges ++ [sortPair paper_id eid], ne + 1, false) := by
  have h2' : eid ∈ (dbUpdate db paper_id bump1).map Prod.fst := by
    rw [dbUpdate_keys]; exact h2
  simp only [addEdgeStep, if_neg h, bumpEdge_of_mem h1, bumpEdge_of_mem h2']

theorem addEdgeStep_of_crash {paper_id eid : String}
    {db : List (String × Paper)} {edges : List (String × String)} (ne : Nat)
    (h : sortPair paper_id eid ∉ edges) (h1 : paper_id ∉ db.map Prod.fst) :
    addEdgeStep paper_id eid db edges ne =
      (db, edges ++ [sortPair paper_id eid], ne + 1, true) := by
  simp only [addEdgeStep, if_neg h, bumpEdge_of_not_mem h1]

theorem addEdgeStep_of_crash2 {paper_id eid : String}
    {db : List (String × Paper)} {edges : List (String × String)} (ne : Nat)
    (h : sortPair paper_id eid ∉ edges) (h1 : paper_id ∈ db.map Prod.fst)
    (h2 : eid ∉ db.map Prod.fst) :
    addEdgeStep paper_id eid db edges ne =
      (dbUpdate db paper_id bump1, edges ++ [sortPair paper_id eid], ne + 1, true) := by
  have h2' : eid ∉ (dbUpdate db paper_id bump1).map Prod.fst := by
    rw [dbUpdate_keys]; exact h2
  simp only [addEdgeStep, if_neg h, bumpEdge_of_mem h1, bumpEdge_of_not_mem h2']

/-- Whatever happens in the edge step, the store part keeps its keys. -/
theorem addEdgeStep_keys (paper_id eid : String) (db : List (String × Paper))
    (edges : List (String × String)) (ne : Nat) :
    (addEdgeStep paper_id eid db edges ne).1.map Prod.fst = db.map Prod.fst := by
  by_cases h : sortPair paper_id eid ∈ edges
  · rw [addEdgeStep_of_mem db ne h]
  · by_cases h1 : paper_id ∈ db.map Prod.fst
    · by_cases h2 : eid ∈ db.map Prod.fst
      · rw [addEdgeStep_of_not_mem ne h h1 h2]
        simp [dbUpdate_keys]
      · rw [addEdgeStep_of_crash2 ne h h1 h2]
        simp [dbUpdate_keys]
    · rw [addEdgeStep_of_crash ne h h1]

/-- The edge part of the edge step: either nothing (the pair was known)
or exactly the canonical pair appended (it was new). -/
theorem addEdgeStep_edges (paper_id eid : String) (db : List (String × Paper))
    (edges : List (String × String)) (ne : Nat) :
    (sortPair paper_id eid ∈ edges ∧
      (addEdgeStep paper_id eid db edges ne).2.1 = edges) ∨
    (sortPair paper_id eid ∉ edges ∧
      (addEdgeStep paper_id eid db edges ne).2.1 = edges ++ [sortPair paper_id eid]) := by
  by_cases h : sortPair paper_id eid ∈ edges
  · left
    rw [addEdgeStep_of_mem db ne h]
    exact ⟨h, rfl⟩
  · right
    refine ⟨h, ?_⟩
    by_cases h1 : paper_id ∈ db.map Prod.fst
    · by_cases h2 : eid ∈ db.map Prod.fst
      · rw [addEdgeStep_of_not_mem ne h h1 h2]
      · rw [addEdgeStep_of_crash2 ne h h1 h2]
    · rw [addEdgeStep_of_crash ne h h1]

/-- Every record of the edge-step result is the corresponding record of
the input store with its counter raised by some amount. -/
theorem addEdgeStep_dbFind (paper_id eid : String) (db : List (String × Paper))
    (edges : List (String × String)) (ne : Nat) (k : String) :
    ∃ m : Nat, dbFind (addEdgeStep paper_id eid db edges ne).1 k =
      (dbFind db k).map (fun p => { p with edge_count := p.edge_count + m }) := by
  have hzero : (dbFind db k).map (fun p => { p with edge_count := p.edge_count + 0 }) =
      dbFind db k := by
    cases dbFind db k with
    | none => rfl
    | some p => rfl
  by_cases h : sortPair paper_id eid ∈ edges
  · refine ⟨0, ?_⟩
    rw [addEdgeStep_of_mem db ne h, hzero]
  · by_cases h1 : paper_id ∈ db.map Prod.fst
    · by_cases h2 : eid ∈ db.map Prod.fst
      · rw [addEdgeStep_of_not_mem ne h h1 h2]
        by_cases hk1 : k = eid
        · subst hk1
          by_cases hk2 : k = paper_id
          · subst hk2
            refine ⟨2, ?_⟩
            simp only [dbFind_dbUpdate, if_pos rfl]
            cases dbFind db k with
            | none => rfl
            | some p => rfl
          · refine ⟨1, ?_⟩
            simp only [dbFind_dbUpdate, if_pos rfl, if_neg hk2]
            cases dbFind db k with
            | none => rfl
            | some p => rfl
        · by_cases hk2 : k = paper_id
          · subst hk2
            have hne : k ≠ eid := hk1
            refine ⟨1, ?_⟩
            simp only [dbFind_dbUpdate, if_neg hne, if_pos rfl]
            cases dbFind db k with
            | none => rfl
            | some p => rfl
          · refine ⟨0, ?_⟩
            simp only [dbFind_dbUpdate, if_neg hk1, if_neg hk2]
            exact hzero.symm
      · rw [addEdgeStep_of_crash2 ne h h1 h2]
        by_cases hk2 : k = paper_id
        · subst hk2
          refine ⟨1, ?_⟩
          simp only [dbFind_dbUpdate, if_pos rfl]
          cases dbFind db k with
          | none => rfl
          | some p => rfl
        · refine ⟨0, ?_⟩
          simp only [dbFind_dbUpdate, if_neg hk2]
          exact hzero.symm
    · refine ⟨0, ?_⟩
      rw [addEdgeStep_of_crash ne h h1, hzero]

theorem sortPair_eq_sortPair_iff (pid j n : String) :
    sortPair pid j = sortPair pid n ↔ j = n := by
  constructor
  · intro h
    rw [sortPair_eq_min_max, sortPair_eq_min_max, Prod.mk.injEq] at h
    obtain ⟨h1, h2⟩ := h
    rcases le_total pid j with hj | hj <;> rcases le_total pid n with hn | hn
    · rw [max_eq_right hj, max_eq_right hn] at h2; exact h2
    · rw [min_eq_left hj, min_eq_right hn] at h1
      rw [max_eq_right hj, max_eq_left hn] at h2
      exact h2.trans h1
    · rw [min_eq_right hj, min_eq_left hn] at h1
      rw [max_eq_left hj, max_eq_right hn] at h2
      exact h1.trans h2
    · rw [min_eq_right hj, min_eq_right hn] at h1; exact h1
  · intro h; rw [h]

/-! ### processEntry assembly lemmas -/

theorem processEntry_of_crashed (paper_id mainPid : String) (isRef : Bool)
    (s : LoopSt) (entry : PaperMeta) (h : s.crashed = true) :
    processEntry paper_id mainPid isRef s entry = s := by
  simp [processEntry, h]

theorem processEntry_skip (paper_id mainPid : String) (isRef : Bool)
    (s : LoopSt) (entry : PaperMeta) (h : validId entry.paperId = none) :
    processEntry paper_id mainPid isRef s entry = s := by
  by_cases hc : s.crashed
  · exact processEntry_of_crashed _ _ _ _ _ hc
  · rw [Bool.not_eq_true] at hc
    simp [processEntry, hc, h]

theorem processEntry_eq (paper_id mainPid : String) (isRef : Bool)
    (s : LoopSt) (entry : PaperMeta) {eid : String}
    (hc : s.crashed = false) (h : validId entry.paperId = some eid) :
    processEntry paper_id mainPid isRef s entry =
      { db := (addEdgeStep paper_id eid
          (upsertNeighbor eid entry (appendId mainPid isRef eid s.db) s.new_papers).1
          s.edges s.new_edges).1
        edges := (addEdgeStep paper_id eid
          (upsertNeighbor eid entry (appendId mainPid isRef eid s.db) s.new_papers).1
          s.edges s.new_edges).2.1
        new_papers := (upsertNeighbor eid entry (appendId mainPid isRef eid s.db)
          s.new_papers).2
        new_edges := (addEdgeStep paper_id eid
          (upsertNeighbor eid entry (appendId mainPid isRef eid s.db) s.new_papers).1
          s.edges s.new_edges).2.2.1
        crashed := (addEdgeStep paper_id eid
          (upsertNeighbor eid entry (appendId mainPid isRef eid s.db) s.new_papers).1
          s.edges s.new_edges).2.2.2 } := by
  simp [processEntry, hc, h]

/-- On any iteration, the store keys either stay unchanged or gain
exactly one fresh identifier at the end. -/
theorem processEntry_keys_plain (paper_id mainPid : String) (isRef : Bool)
    (s : LoopSt) (entry : PaperMeta) :
    (processEntry paper_id mainPid isRef s entry).db.map Prod.fst = s.db.map Prod.fst ∨
    ∃ i, validId entry.paperId = some i ∧ i ∉ s.db.map Prod.fst ∧
      (processEntry paper_id mainPid isRef s entry).db.map Prod.fst =
        s.db.map Prod.fst ++ [i] := by
  by_cases hcr : s.crashed
  · left; rw [processEntry_of_crashed _ _ _ _ _ hcr]
  · rw [Bool.not_eq_true] at hcr
    cases hid : validId entry.paperId with
    | none => left; rw [processEntry_skip _ _ _ _ _ hid]
    | some i =>
        obtain ⟨hpidEq, hine⟩ := validId_eq_some hid
        rw [processEntry_eq paper_id mainPid isRef s entry hcr hid]
        simp only
        rw [addEdgeStep_keys]
        by_cases hib : i ∈ s.db.map Prod.fst
        · left
          rw [upsertNeighbor_of_mem entry s.new_papers
            (by rw [appendId_keys]; exact hib)]
          exact appendId_keys mainPid isRef i s.db
        · right
          refine ⟨i, rfl, hib, ?_⟩
          rw [upsertNeighbor_of_not_mem s.new_papers
            (by rw [appendId_keys]; exact hib) hpidEq hine]
          simp only [List.map_append, List.map_cons, List.map_nil]
          rw [appendId_keys]

/-- On any iteration, the edge set either stays unchanged or gains
exactly one new canonical pair at the end. -/
theorem processEntry_edges_plain (paper_id mainPid : String) (isRef : Bool)
    (s : LoopSt) (entry : PaperMeta) :
    (processEntry paper_id mainPid isRef s entry).edges = s.edges ∨
    ∃ i, validId entry.paperId = some i ∧ sortPair paper_id i ∉ s.edges ∧
      (processEntry paper_id mainPid isRef s entry).edges =
        s.edges ++ [sortPair paper_id i] := by
  by_cases hcr : s.crashed
  · left; rw [processEntry_of_crashed _ _ _ _ _ hcr]
  · rw [Bool.not_eq_true] at hcr
    cases hid : validId entry.paperId with
    | none => left; rw [processEntry_skip _ _ _ _ _ hid]
    | some i =>
        rw [processEntry_eq paper_id mainPid isRef s entry hcr hid]
        simp only
        rcases addEdgeStep_edges paper_id i
          (upsertNeighbor i entry (appendId mainPid isRef i s.db) s.new_papers).1
          s.edges s.new_edges with ⟨hmem, heq⟩ | ⟨hmem, heq⟩
        · left; exact heq
        · right; exact ⟨i, rfl, hmem, heq⟩

/-- Full description of one loop iteration on a non-crashed state whose
store contains the requested root, for an entry with a usable
identifier: no crash, key/counter/edge evolution, and the append made to
the stored root record. -/
theorem processEntry_spec (paper_id mainPid : String) (isRef : Bool)
    (s : LoopSt) (entry : PaperMeta) {i : String}
    (hc : s.crashed = false) (hpid : paper_id ∈ s.db.map Prod.fst)
    (hid : validId entry.paperId = some i) :
    (processEntry paper_id mainPid isRef s entry).crashed = false ∧
    (processEntry paper_id mainPid isRef s entry).db.map Prod.fst =
      s.db.map Prod.fst ++ (if i ∈ s.db.map Prod.fst then [] else [i]) ∧
    (processEntry paper_id mainPid isRef s entry).new_papers =
      s.new_papers + (if i ∈ s.db.map Prod.fst then 0 else 1) ∧
    (processEntry paper_id mainPid isRef s entry).edges =
      s.edges ++ (if sortPair paper_id i ∈ s.edges then [] else [sortPair paper_id i]) ∧
    (processEntry paper_id mainPid isRef s entry).new_edges =
      s.new_edges + (if sortPair paper_id i ∈ s.edges then 0 else 1) ∧
    (∀ p, dbFind s.db mainPid = some p →
      ∃ q, dbFind (processEntry paper_id mainPid isRef s entry).db mainPid = some q ∧
        q.references = p.references ++ (if isRef then [i] else []) ∧
        q.citations = p.citations ++ (if isRef then [] else [i])) := by
  obtain ⟨hpidEq, hine⟩ := validId_eq_some hid
  rw [processEntry_eq paper_id mainPid isRef s entry hc hid]
  simp only
  have hkeys1 : (appendId mainPid isRef i s.db).map Prod.fst = s.db.map Prod.fst :=
    appendId_keys mainPid isRef i s.db
  have hup : ∀ p, dbFind s.db mainPid = some p →
      dbFind (appendId mainPid isRef i s.db) mainPid = some
        (if isRef then { p with references := p.references ++ [i] }
         else { p with citations := p.citations ++ [i] }) := by
    intro p hp
    rw [dbFind_appendId, if_pos rfl, hp]
    rfl
  by_cases hib : i ∈ s.db.map Prod.fst
  · rw [upsertNeighbor_of_mem entry s.new_papers (by rw [hkeys1]; exact hib)]
    simp only [if_pos hib]
    have hpid2 : paper_id ∈ (appendId mainPid isRef i s.db).map Prod.fst := by
      rw [hkeys1]; exact hpid
    have hi2 : i ∈ (appendId mainPid isRef i s.db).map Prod.fst := by
      rw [hkeys1]; exact hib
    by_cases hie : sortPair paper_id i ∈ s.edges
    · rw [addEdgeStep_of_mem _ s.new_edges hie]
      simp only [if_pos hie]
      refine ⟨trivial, by rw [hkeys1]; simp, by simp, by simp, by simp, ?_⟩
      intro p hp
      refine ⟨_, hup p hp, ?_, ?_⟩ <;>
        cases isRef <;> simp
    · rw [addEdgeStep_of_not_mem s.new_edges hie hpid2 hi2]
      simp only [if_neg hie]
      refine ⟨trivial, ?_, by simp, by simp, by simp, ?_⟩
      · simp only [dbUpdate_keys]
        rw [hkeys1]; simp
      · intro p hp
        have h1 := hup p hp
        obtain ⟨m, hm3⟩ := addEdgeStep_dbFind paper_id i
          (appendId mainPid isRef i s.db) s.edges s.new_edges mainPid
        rw [addEdgeStep_of_not_mem s.new_edges hie hpid2 hi2] at hm3
        rw [h1] at hm3
        simp only [Option.map_some'] at hm3
        refine ⟨_, hm3, ?_, ?_⟩ <;>
          cases isRef <;> simp
  · rw [upsertNeighbor_of_not_mem s.new_papers (by rw [hkeys1]; exact hib)
      hpidEq hine]
    simp only [if_neg hib]
    have hkeys2 : ((appendId mainPid isRef i s.db) ++
        [(i, mkPaper entry i false)]).map Prod.fst = s.db.map Prod.fst ++ [i] := by
      simp only [List.map_append, List.map_cons, List.map_nil]
      rw [hkeys1]
    have hpid2 : paper_id ∈ ((appendId mainPid isRef i s.db) ++
        [(i, mkPaper entry i false)]).map Prod.fst := by
      rw [hkeys2]; exact List.mem_append_left _ hpid
    have hi2 : i ∈ ((appendId mainPid isRef i s.db) ++
        [(i, mkPaper entry i false)]).map Prod.fst := by
      rw [hkeys2]; simp
    have hup2 : ∀ p, dbFind s.db mainPid = some p →
        dbFind ((appendId mainPid isRef i s.db) ++ [(i, mkPaper entry i false)])
          mainPid = some
          (if isRef then { p with references := p.references ++ [i] }
           else { p with citations := p.citations ++ [i] }) := by
      intro p hp
      rw [dbFind_append, hup p hp]
    by_cases hie : sortPair paper_id i ∈ s.edges
    · rw [addEdgeStep_of_mem _ s.new_edges hie]
      simp only [if_pos hie]
      refine ⟨trivial, by rw [hkeys2], by simp, by simp, by simp, ?_⟩
      intro p hp
      refine ⟨_, hup2 p hp, ?_, ?_⟩ <;>
        cases isRef <;> simp
    · rw [addEdgeStep_of_not_mem s.new_edges hie hpid2 hi2]
      simp only [if_neg hie]
      refine ⟨trivial, ?_, by simp, by simp, by simp, ?_⟩
      · simp only [dbUpdate_keys]
        rw [hkeys2]
      · intro p hp
        have h1 := hup2 p hp
        obtain ⟨m, hm3⟩ := addEdgeStep_dbFind paper_id i
          ((appendId mainPid isRef i s.db) ++ [(i, mkPaper entry i false)])
          s.edges s.new_edges mainPid
        rw [addEdgeStep_of_not_mem s.new_edges hie hpid2 hi2] at hm3
        rw [h1] at hm3
        simp only [Option.map_some'] at hm3
        refine ⟨_, hm3, ?_, ?_⟩ <;>
          cases isRef <;> simp

/-! ### countNew lemmas -/

theorem countNew_congr_on {α : Type} [DecidableEq α] (l : List α)
    {s1 s2 : List α} (h : ∀ x ∈ l, x ∈ s1 ↔ x ∈ s2) :
    countNew l s1 = countNew l s2 := by
  induction l generalizing s1 s2 with
  | nil => rfl
  | cons x rest ih =>
      have hx := h x (List.mem_cons_self x rest)
      simp only [countNew]
      by_cases hx1 : x ∈ s1
      · rw [if_pos hx1, if_pos (hx.mp hx1)]
        exact ih (fun y hy => h y (List.mem_cons_of_mem x hy))
      · rw [if_neg hx1, if_neg (fun hx2 => hx1 (hx.mpr hx2))]
        have h' : ∀ y ∈ rest, y ∈ x :: s1 ↔ y ∈ x :: s2 := by
          intro y hy
          simp only [List.mem_cons]
          rw [h y (List.mem_cons_of_mem x hy)]
        rw [ih h']

theorem countNew_append {α : Type} [DecidableEq α] (l1 l2 seen : List α) :
    countNew (l1 ++ l2) seen = countNew l1 seen + countNew l2 (l1 ++ seen) := by
  induction l1 generalizing seen with
  | nil => simp [countNew]
  | cons x rest ih =>
      by_cases hx : x ∈ seen
      · simp only [List.cons_append, countNew, if_pos hx, List.append_eq]
        rw [ih]
        congr 1
        refine countNew_congr_on l2 (fun y _ => ?_)
        simp only [List.cons_append, List.mem_cons, List.mem_append]
        constructor
        · tauto
        · rintro (hy | hy | hy)
          · subst hy; right; exact hx
          · tauto
          · tauto
      · simp only [List.cons_append, countNew, if_neg hx, List.append_eq]
        rw [ih]
        have hmm : countNew l2 (rest ++ x :: seen) = countNew l2 (x :: (rest ++ seen)) := by
          refine countNew_congr_on l2 (fun y _ => ?_)
          simp only [List.mem_append, List.mem_cons]
          tauto
        rw [hmm]
        omega

theorem countNew_seen_cons_not_mem {α : Type} [DecidableEq α] {l : List α}
    {n : α} (seen : List α) (h : n ∉ l) :
    countNew l (n :: seen) = countNew l seen := by
  refine countNew_congr_on l (fun x hx => ?_)
  simp only [List.mem_cons]
  constructor
  · rintro (hh | hh)
    · exact absurd (hh ▸ hx) h
    · exact hh
  · exact Or.inr

theorem countNew_filter_of_mem_seen {α : Type} [DecidableEq α] (l : List α)
    {n : α} {seen : List α} (h : n ∈ seen) :
    countNew l seen = countNew (l.filter (fun x => x != n)) seen := by
  induction l generalizing seen with
  | nil => rfl
  | cons x rest ih =>
      by_cases hxn : x = n
      · subst hxn
        rw [List.filter_cons_of_neg (by simp)]
        simp only [countNew, if_pos h]
        exact ih h
      · rw [List.filter_cons_of_pos (by simp [hxn])]
        simp only [countNew]
        by_cases hx : x ∈ seen
        · rw [if_pos hx, if_pos hx]
          exact ih h
        · rw [if_neg hx, if_neg hx]
          rw [ih (List.mem_cons_of_mem x h)]

theorem countNew_filter_ne {α : Type} [DecidableEq α] (l : List α)
    (seen : List α) (n : α) :
    countNew l seen =
      countNew (l.filter (fun x => x != n)) seen +
        (if n ∈ l ∧ n ∉ seen then 1 else 0) := by
  induction l generalizing seen with
  | nil => simp [countNew]
  | cons x rest ih =>
      by_cases hxn : x = n
      · subst hxn
        rw [List.filter_cons_of_neg (by simp)]
        by_cases hx : x ∈ seen
        · simp only [countNew, if_pos hx]
          rw [ih seen]
          have : ¬(x ∈ rest ∧ x ∉ seen) := fun hh => hh.2 hx
          rw [if_neg this]
          have hcond : ¬(x ∈ x :: rest ∧ x ∉ seen) := fun hh => hh.2 hx
          rw [if_neg hcond]
        · simp only [countNew, if_neg hx]
          have hcond : x ∈ x :: rest ∧ x ∉ seen :=
            ⟨List.mem_cons_self x rest, hx⟩
          rw [if_pos hcond]
          congr 1
          rw [countNew_filter_of_mem_seen rest (List.mem_cons_self x seen)]
          exact countNew_seen_cons_not_mem seen (by
            intro hmem
            rw [List.mem_filter] at hmem
            simp at hmem)
      · rw [List.filter_cons_of_pos (by simp [hxn])]
        simp only [countNew]
        by_cases hx : x ∈ seen
        · rw [if_pos hx, if_pos hx, ih seen]
          have hcond : (n ∈ x :: rest ∧ n ∉ seen) ↔ (n ∈ rest ∧ n ∉ seen) := by
            simp only [List.mem_cons]
            constructor
            · rintro ⟨hh | hh, h2⟩
              · exact absurd hh.symm hxn
              · exact ⟨hh, h2⟩
            · rintro ⟨hh, h2⟩; exact ⟨Or.inr hh, h2⟩
          by_cases hn : n ∈ rest ∧ n ∉ seen
          · rw [if_pos hn, if_pos (hcond.mpr hn)]
          · rw [if_neg hn, if_neg (fun hh => hn (hcond.mp hh))]
        · rw [if_neg hx, if_neg hx, ih (x :: seen)]
          have hcond : (n ∈ x :: rest ∧ n ∉ seen) ↔ (n ∈ rest ∧ n ∉ x :: seen) := by
            simp only [List.mem_cons]
            constructor
            · rintro ⟨hh | hh, h2⟩
              · exact absurd hh.symm hxn
              · refine ⟨hh, fun hz => ?_⟩
                rcases hz with hz | hz
                · exact hxn hz.symm
                · exact h2 hz
            · rintro ⟨hh, h2⟩
              exact ⟨Or.inr hh, fun hz => h2 (Or.inr hz)⟩
          by_cases hn : n ∈ rest ∧ n ∉ x :: seen
          · rw [if_pos hn, if_pos (hcond.mpr hn)]
          · rw [if_neg hn, if_neg (fun hh => hn (hcond.mp hh))]

/-! ### Fold-level description of the two neighbor loops -/

theorem entryIds_cons_none (e : PaperMeta) (l : List PaperMeta)
    (h : validId e.paperId = none) : entryIds (e :: l) = entryIds l := by
  simp [entryIds, List.filterMap_cons, h]

theorem entryIds_cons_some (e : PaperMeta) (l : List PaperMeta) {i : String}
    (h : validId e.paperId = some i) : entryIds (e :: l) = i :: entryIds l := by
  simp [entryIds, List.filterMap_cons, h]

/-- Full description of one neighbor loop run from a non-crashed state
containing the requested root: no crash, the key set grows by exactly
the fresh identifiers, new_papers counts identifiers new to the store,
the edge set grows by exactly the fresh canonical pairs, new_edges
counts pairs new to the edge set, and the identifier sequence of the
stored root record receives exactly the usable identifiers, in order. -/
theorem foldl_processEntry_spec (paper_id mainPid : String) (isRef : Bool)
    (entries : List PaperMeta) (s : LoopSt)
    (hc : s.crashed = false) (hpid : paper_id ∈ s.db.map Prod.fst) :
    (entries.foldl (processEntry paper_id mainPid isRef) s).crashed = false ∧
    (∀ k, k ∈ (entries.foldl (processEntry paper_id mainPid isRef) s).db.map Prod.fst ↔
      k ∈ s.db.map Prod.fst ∨ k ∈ entryIds entries) ∧
    (entries.foldl (processEntry paper_id mainPid isRef) s).new_papers =
      s.new_papers + countNew (entryIds entries) (s.db.map Prod.fst) ∧
    (∀ e, e ∈ (entries.foldl (processEntry paper_id mainPid isRef) s).edges ↔
      e ∈ s.edges ∨ e ∈ (entryIds entries).map (sortPair paper_id)) ∧
    (entries.foldl (processEntry paper_id mainPid isRef) s).new_edges =
      s.new_edges + countNew ((entryIds entries).map (sortPair paper_id)) s.edges ∧
    (∀ p, dbFind s.db mainPid = some p →
      ∃ q, dbFind (entries.foldl (processEntry paper_id mainPid isRef) s).db
          mainPid = some q ∧
        q.references = p.references ++ (if isRef then entryIds entries else []) ∧
        q.citations = p.citations ++ (if isRef then [] else entryIds entries)) := by
  induction entries generalizing s with
  | nil =>
      refine ⟨hc, by simp [entryIds], by simp [entryIds, countNew],
        by simp [entryIds], by simp [entryIds, countNew], ?_⟩
      intro p hp
      exact ⟨p, hp, by cases isRef <;> simp [entryIds],
        by cases isRef <;> simp [entryIds]⟩
  | cons entry rest ih =>
      rw [List.foldl_cons]
      cases hid : validId entry.paperId with
      | none =>
          rw [processEntry_skip _ _ _ _ _ hid, entryIds_cons_none _ _ hid]
          exact ih s hc hpid
      | some i =>
          obtain ⟨h1, h2, h3, h4, h5, h6⟩ :=
            processEntry_spec paper_id mainPid isRef s entry hc hpid hid
          have hpid' : paper_id ∈
              (processEntry paper_id mainPid isRef s entry).db.map Prod.fst := by
            rw [h2]; exact List.mem_append_left _ hpid
          obtain ⟨ih1, ih2, ih3, ih4, ih5, ih6⟩ :=
            ih (processEntry paper_id mainPid isRef s entry) h1 hpid'
          rw [entryIds_cons_some _ _ hid]
          refine ⟨ih1, ?_, ?_, ?_, ?_, ?_⟩
          · intro k
            rw [ih2 k, h2]
            by_cases hib : i ∈ s.db.map Prod.fst
            · rw [if_pos hib]
              simp only [List.append_nil, List.mem_cons]
              constructor
              · tauto
              · rintro (h | h | h)
                · exact Or.inl h
                · subst h; exact Or.inl hib
                · exact Or.inr h
            · rw [if_neg hib]
              simp only [List.mem_append, List.mem_cons, List.mem_singleton]
              tauto
          · rw [ih3, h3, h2]
            by_cases hib : i ∈ s.db.map Prod.fst
            · rw [if_pos hib, if_pos hib]
              simp only [List.append_nil, countNew, if_pos hib]
              omega
            · rw [if_neg hib, if_neg hib]
              simp only [countNew, if_neg hib]
              have hcg : countNew (entryIds rest) (s.db.map Prod.fst ++ [i]) =
                  countNew (entryIds rest) (i :: s.db.map Prod.fst) := by
                refine countNew_congr_on _ (fun y _ => ?_)
                simp only [List.mem_append, List.mem_singleton, List.mem_cons]
                tauto
              rw [hcg]
              omega
          · intro e
            rw [ih4 e, h4]
            by_cases hie : sortPair paper_id i ∈ s.edges
            · rw [if_pos hie]
              simp only [List.append_nil, List.map_cons, List.mem_cons]
              constructor
              · tauto
              · rintro (h | h | h)
                · exact Or.inl h
                · subst h; exact Or.inl hie
                · exact Or.inr h
            · rw [if_neg hie]
              simp only [List.mem_append, List.map_cons, List.mem_cons,
                List.mem_singleton]
              tauto
          · rw [ih5, h5, h4]
            simp only [List.map_cons]
            by_cases hie : sortPair paper_id i ∈ s.edges
            · rw [if_pos hie, if_pos hie]
              simp only [List.append_nil, countNew, if_pos hie]
              omega
            · rw [if_neg hie, if_neg hie]
              simp only [countNew, if_neg hie]
              have hcg : countNew ((entryIds rest).map (sortPair paper_id))
                  (s.edges ++ [sortPair paper_id i]) =
                  countNew ((entryIds rest).map (sortPair paper_id))
                    (sortPair paper_id i :: s.edges) := by
                refine countNew_congr_on _ (fun y _ => ?_)
                simp only [List.mem_append, List.mem_singleton, List.mem_cons]
                tauto
              rw [hcg]
              omega
          · intro p hp
            obtain ⟨q, hq, hqr, hqc⟩ := h6 p hp
            obtain ⟨q2, hq2, hq2r, hq2c⟩ := ih6 q hq
            refine ⟨q2, hq2, ?_, ?_⟩
            · rw [hq2r, hqr]
              cases isRef <;> simp
            · rw [hq2c, hqc]
              cases isRef <;> simp

/-! ### add_paper_to_db branch lemmas -/

theorem dbFind_cons_pos {k pid : String} (q : Paper) (rest : List (String × Paper))
    (h : k = pid) : dbFind ((k, q) :: rest) pid = some q := by
  simp [dbFind, h]

theorem dbFind_cons_neg {k pid : String} (q : Paper) (rest : List (String × Paper))
    (h : ¬k = pid) : dbFind ((k, q) :: rest) pid = dbFind rest pid := by
  simp [dbFind, h]

theorem dbUpdate_cons_pos {k pid : String} (q : Paper) (rest : List (String × Paper))
    (f : Paper → Paper) (h : k = pid) :
    dbUpdate ((k, q) :: rest) pid f = (k, f q) :: rest := by
  simp [dbUpdate, h]

theorem dbUpdate_cons_neg {k pid : String} (q : Paper) (rest : List (String × Paper))
    (f : Paper → Paper) (h : ¬k = pid) :
    dbUpdate ((k, q) :: rest) pid f = (k, q) :: dbUpdate rest pid f := by
  simp [dbUpdate, h]

theorem dbFind_mem {db : List (String × Paper)} {pid : String} {p : Paper}
    (h : dbFind db pid = some p) : (pid, p) ∈ db := by
  induction db with
  | nil => simp [dbFind] at h
  | cons kp rest ih =>
      obtain ⟨k, q⟩ := kp
      by_cases hk : k = pid
      · rw [dbFind_cons_pos q rest hk, Option.some.injEq] at h
        subst h
        subst hk
        exact List.mem_cons_self _ _
      · rw [dbFind_cons_neg q rest hk] at h
        exact List.mem_cons_of_mem _ (ih h)

theorem add_paper_to_db_falsy (db : List (String × Paper)) {meta : PaperMeta}
    (h : strFalsy meta.paperId = true) (is_main : Bool) :
    add_paper_to_db db meta is_main = (none, db) := by
  cases hm : meta.paperId with
  | none => simp [add_paper_to_db, hm]
  | some pid =>
      rw [hm] at h
      simp only [strFalsy, beq_iff_eq] at h
      simp [add_paper_to_db, hm, h]

theorem add_paper_to_db_existing {db : List (String × Paper)} {meta : PaperMeta}
    {pid : String} {p : Paper} (hid : meta.paperId = some pid) (hpne : pid ≠ "")
    (hfind : dbFind db pid = some p) (is_main : Bool) :
    add_paper_to_db db meta is_main =
      (some (if is_main then { p with is_main := true } else p),
       if is_main then dbUpdate db pid (fun q => { q with is_main := true })
       else db) := by
  cases is_main <;> simp [add_paper_to_db, hid, hpne, hfind]

theorem add_paper_to_db_new {db : List (String × Paper)} {meta : PaperMeta}
    {pid : String} (hid : meta.paperId = some pid) (hpne : pid ≠ "")
    (hfind : dbFind db pid = none) (is_main : Bool) :
    add_paper_to_db db meta is_main =
      (some (mkPaper meta pid is_main), db ++ [(pid, mkPaper meta pid is_main)]) := by
  simp [add_paper_to_db, hid, hpne, hfind]

theorem keyMatch_dbUpdate {db : List (String × Paper)} {pid : String}
    {f : Paper → Paper} (hkm : ∀ kp ∈ db, kp.2.paper_id = kp.1)
    (hf : ∀ p, (f p).paper_id = p.paper_id) :
    ∀ kp ∈ dbUpdate db pid f, kp.2.paper_id = kp.1 := by
  induction db with
  | nil => simp [dbUpdate]
  | cons kq rest ih =>
      obtain ⟨k, q⟩ := kq
      intro kp hkp
      by_cases hk : k = pid
      · rw [dbUpdate_cons_pos q rest f hk, List.mem_cons] at hkp
        rcases hkp with hkp | hkp
        · subst hkp
          simp only
          rw [hf q]
          exact hkm (k, q) (List.mem_cons_self _ _)
        · exact hkm kp (List.mem_cons_of_mem _ hkp)
      · rw [dbUpdate_cons_neg q rest f hk, List.mem_cons] at hkp
        rcases hkp with hkp | hkp
        · subst hkp
          exact hkm (k, q) (List.mem_cons_self _ _)
        · exact ih (fun y hy => hkm y (List.mem_cons_of_mem _ hy)) kp hkp

/-- What the main-paper upsert of process_main_paper produces. -/
theorem add_main_spec (st : GraphState) (paper_id : String) (meta : PaperMeta)
    (hkm : ∀ kp ∈ st.papers_db, kp.2.paper_id = kp.1)
    (hmeta : meta.paperId = some paper_id) (hpne : paper_id ≠ "") :
    ∃ mp db0, add_paper_to_db st.papers_db meta true = (some mp, db0) ∧
      mp.paper_id = paper_id ∧
      dbFind db0 paper_id = some mp ∧
      (∀ k, k ∈ db0.map Prod.fst ↔ k ∈ paper_id :: st.papers_db.map Prod.fst) ∧
      mp.references = (match dbFind st.papers_db paper_id with
        | some p => p.references
        | none => []) ∧
      mp.citations = (match dbFind st.papers_db paper_id with
        | some p => p.citations
        | none => []) := by
  cases hfind : dbFind st.papers_db paper_id with
  | some p =>
      rw [add_paper_to_db_existing hmeta hpne hfind true]
      have hpp : p.paper_id = paper_id := hkm (paper_id, p) (dbFind_mem hfind)
      refine ⟨{ p with is_main := true },
        dbUpdate st.papers_db paper_id (fun q => { q with is_main := true }),
        by simp, by simpa using hpp, ?_, ?_, by simp, by simp⟩
      · rw [dbFind_dbUpdate, if_pos rfl, hfind]
        rfl
      · intro k
        rw [dbUpdate_keys]
        simp only [List.mem_cons]
        constructor
        · exact Or.inr
        · rintro (hk | hk)
          · subst hk; exact mem_of_dbFind_eq_some hfind
          · exact hk
  | none =>
      rw [add_paper_to_db_new hmeta hpne hfind true]
      refine ⟨mkPaper meta paper_id true, st.papers_db ++ [(paper_id, mkPaper meta paper_id true)],
        rfl, rfl, ?_, ?_, by simp [mkPaper], by simp [mkPaper]⟩
      · rw [dbFind_append, hfind]
        simp [dbFind]
      · intro k
        simp only [List.map_append, List.mem_append, List.map_cons, List.map_nil,
          List.mem_cons, List.mem_singleton]
        constructor
        · rintro (hk | hk)
          · exact Or.inr hk
          · simp only [List.mem_cons, List.not_mem_nil, or_false] at hk
            exact Or.inl hk
        · rintro (hk | hk)
          · subst hk; right; simp
          · exact Or.inl hk

/-! ### Characterization of a successful root ingestion -/

/-- When the requested root is not yet stored as main, and the provider
returns a payload carrying the requested identifier, process_main_paper
succeeds and its effect is exactly: upsert the root as main, append all
usable reference and citation identifiers to the stored root record (in
order), insert every identifier not yet stored (counted once each in
new_papers), and insert every canonical pair not yet present (counted
once each in new_edges). -/
theorem process_some_char (st : GraphState) (paper_id : String) (pd : PaperData)
    (hkm : ∀ kp ∈ st.papers_db, kp.2.paper_id = kp.1)
    (hmeta : pd.meta.paperId = some paper_id) (hpne : paper_id ≠ "")
    (hnm : ∀ p0, dbFind st.papers_db paper_id = some p0 → p0.is_main = false) :
    (process_main_paper st paper_id (some pd)).2 = Outcome.ok
      { success := true
        message := "Added paper with " ++ toString pd.references.length
          ++ " references and " ++ toString pd.citations.length ++ " citations"
        paper := (dbFind (process_main_paper st paper_id (some pd)).1.papers_db
          paper_id).map paper_to_dict
        new_papers := countNew (entryIds pd.references ++ entryIds pd.citations)
          (paper_id :: st.papers_db.map Prod.fst)
        new_edges := countNew ((entryIds pd.references ++ entryIds pd.citations).map
          (sortPair paper_id)) st.edges } ∧
    (∀ k, k ∈ (process_main_paper st paper_id (some pd)).1.papers_db.map Prod.fst ↔
      k ∈ paper_id :: st.papers_db.map Prod.fst ∨
      k ∈ entryIds pd.references ++ entryIds pd.citations) ∧
    (∀ e, e ∈ (process_main_paper st paper_id (some pd)).1.edges ↔
      e ∈ st.edges ∨
      e ∈ (entryIds pd.references ++ entryIds pd.citations).map (sortPair paper_id)) ∧
    (∃ m, dbFind (process_main_paper st paper_id (some pd)).1.papers_db paper_id
        = some m ∧
      m.references = (match dbFind st.papers_db paper_id with
        | some p => p.references
        | none => []) ++ entryIds pd.references ∧
      m.citations = (match dbFind st.papers_db paper_id with
        | some p => p.citations
        | none => []) ++ entryIds pd.citations) := by
  obtain ⟨mp, db0, hadd, hmpid, hfind0, hkeys0, hrefs0, hcits0⟩ :=
    add_main_spec st paper_id pd.meta hkm hmeta hpne
  have hred : process_main_paper st paper_id (some pd) =
      process_fetch st paper_id (some pd) := by
    unfold process_main_paper
    cases hf : dbFind st.papers_db paper_id with
    | none => simp
    | some p0 => simp [hnm p0 hf]
  rw [hred]
  simp only [process_fetch, hadd, hmpid]
  have hpid0 : paper_id ∈ db0.map Prod.fst := mem_of_dbFind_eq_some hfind0
  obtain ⟨f1c, f1k0, f1np0, f1e0, f1ne0, f1r⟩ :=
    foldl_processEntry_spec paper_id paper_id true pd.references
      ⟨db0, st.edges, 0, 0, false⟩ rfl hpid0
  set s1 := pd.references.foldl (processEntry paper_id paper_id true)
    ⟨db0, st.edges, 0, 0, false⟩ with hs1
  have f1k : ∀ k, k ∈ s1.db.map Prod.fst ↔
      k ∈ db0.map Prod.fst ∨ k ∈ entryIds pd.references := by
    intro k
    simpa using f1k0 k
  have f1np : s1.new_papers =
      countNew (entryIds pd.references) (db0.map Prod.fst) := by
    simpa using f1np0
  have f1e : ∀ e, e ∈ s1.edges ↔
      e ∈ st.edges ∨ e ∈ (entryIds pd.references).map (sortPair paper_id) := by
    intro e
    simpa using f1e0 e
  have f1ne : s1.new_edges =
      countNew ((entryIds pd.references).map (sortPair paper_id)) st.edges := by
    simpa using f1ne0
  have hpid1 : paper_id ∈ s1.db.map Prod.fst := (f1k paper_id).mpr (Or.inl hpid0)
  obtain ⟨f2c, f2k, f2np, f2e, f2ne, f2r⟩ :=
    foldl_processEntry_spec paper_id paper_id false pd.citations s1 f1c hpid1
  set s2 := pd.citations.foldl (processEntry paper_id paper_id false) s1 with hs2
  rw [f2c]
  simp only [Bool.false_eq_true, if_false]
  have hknp : s2.new_papers = countNew (entryIds pd.references ++ entryIds pd.citations)
      (paper_id :: st.papers_db.map Prod.fst) := by
    rw [f2np, f1np]
    have h1 : countNew (entryIds pd.citations) (s1.db.map Prod.fst) =
        countNew (entryIds pd.citations) (entryIds pd.references ++ db0.map Prod.fst) := by
      refine countNew_congr_on _ (fun y _ => ?_)
      rw [f1k y]
      simp only [List.mem_append]
      tauto
    rw [h1, ← countNew_append]
    have h2 : countNew (entryIds pd.references ++ entryIds pd.citations)
        (db0.map Prod.fst) = countNew (entryIds pd.references ++ entryIds pd.citations)
        (paper_id :: st.papers_db.map Prod.fst) := by
      refine countNew_congr_on _ (fun y _ => ?_)
      exact hkeys0 y
    rw [h2]
  have hkne : s2.new_edges = countNew
      ((entryIds pd.references ++ entryIds pd.citations).map (sortPair paper_id))
      st.edges := by
    rw [f2ne, f1ne]
    have h1 : countNew ((entryIds pd.citations).map (sortPair paper_id)) s1.edges =
        countNew ((entryIds pd.citations).map (sortPair paper_id))
          ((entryIds pd.references).map (sortPair paper_id) ++ st.edges) := by
      refine countNew_congr_on _ (fun y _ => ?_)
      rw [f1e y]
      simp only [List.mem_append]
      tauto
    rw [h1, ← countNew_append, List.map_append]
  refine ⟨?_, ?_, ?_, ?_⟩
  · simp only [Outcome.ok.injEq, IngestResult.mk.injEq]
    exact ⟨trivial, trivial, trivial, hknp, hkne⟩
  · intro k
    rw [f2k k, f1k k]
    rw [hkeys0 k]
    simp only [List.mem_append]
    tauto
  · intro e
    rw [f2e e, f1e e]
    simp only [List.map_append, List.mem_append]
    tauto
  · obtain ⟨q1, hq1, hq1r, hq1c⟩ := f1r mp hfind0
    obtain ⟨q2, hq2, hq2r, hq2c⟩ := f2r q1 hq1
    refine ⟨q2, hq2, ?_, ?_⟩
    · rw [hq2r, hq1r, hrefs0]
      simp
    · rw [hq2c, hq1c, hcits0]
      simp

/-! ### Degree lemmas -/

theorem dbFind_of_mem_nodup {db : List (String × Paper)} {kp : String × Paper}
    (hnd : (db.map Prod.fst).Nodup) (h : kp ∈ db) : dbFind db kp.1 = some kp.2 := by
  induction db with
  | nil => simp at h
  | cons kq rest ih =>
      obtain ⟨k, q⟩ := kq
      simp only [List.map_cons, List.nodup_cons] at hnd
      rcases List.mem_cons.mp h with h | h
      · subst h
        exact dbFind_cons_pos _ _ rfl
      · have hk : ¬k = kp.1 := by
          intro hk
          exact hnd.1 (hk ▸ (List.mem_map_of_mem Prod.fst h))
        rw [dbFind_cons_neg _ _ hk]
        exact ih hnd.2 h

theorem degree_append (edges1 edges2 : List (String × String)) (k : String) :
    degree (edges1 ++ edges2) k = degree edges1 k + degree edges2 k := by
  unfold degree
  rw [List.filter_append, List.length_append]

theorem sortPair_fst_mem (a b : String) :
    (sortPair a b).1 = a ∨ (sortPair a b).1 = b := by
  unfold sortPair
  by_cases h : b.data < a.data
  · rw [if_pos h]; right; rfl
  · rw [if_neg h]; left; rfl

theorem sortPair_snd_mem (a b : String) :
    (sortPair a b).2 = a ∨ (sortPair a b).2 = b := by
  unfold sortPair
  by_cases h : b.data < a.data
  · rw [if_pos h]; left; rfl
  · rw [if_neg h]; right; rfl

theorem sortPair_endpoint_iff (a b k : String) :
    ((sortPair a b).1 = k ∨ (sortPair a b).2 = k) ↔ (a = k ∨ b = k) := by
  rw [sortPair_eq_min_max]
  simp only
  rcases le_total a b with h | h
  · rw [min_eq_left h, max_eq_right h]
  · rw [min_eq_right h, max_eq_left h]
    tauto

theorem degree_single_sortPair (a b k : String) :
    degree [sortPair a b] k = if a = k ∨ b = k then 1 else 0 := by
  unfold degree
  by_cases h : a = k ∨ b = k
  · rw [if_pos h]
    have h2 : ((sortPair a b).1 == k || (sortPair a b).2 == k) = true := by
      rw [Bool.or_eq_true, beq_iff_eq, beq_iff_eq]
      exact (sortPair_endpoint_iff a b k).mpr h
    simp [h2]
  · rw [if_neg h]
    have h2 : ((sortPair a b).1 == k || (sortPair a b).2 == k) = false := by
      rw [Bool.or_eq_false_iff, beq_eq_false_iff_ne, beq_eq_false_iff_ne]
      have h3 := (not_iff_not.mpr (sortPair_endpoint_iff a b k)).mpr h
      push_neg at h3
      exact h3
    simp [h2]

theorem degree_append_sortPair (edges : List (String × String)) (a b k : String) :
    degree (edges ++ [sortPair a b]) k =
      degree edges k + (if a = k ∨ b = k then 1 else 0) := by
  rw [degree_append, degree_single_sortPair]

theorem degree_eq_zero_of_not_mem {edges : List (String × String)}
    {K : List String} (h : ∀ e ∈ edges, e.1 ∈ K ∧ e.2 ∈ K) {i : String}
    (hi : i ∉ K) : degree edges i = 0 := by
  unfold degree
  rw [List.length_eq_zero]
  rw [List.filter_eq_nil_iff]
  intro e he
  have := h e he
  rw [Bool.or_eq_true, beq_iff_eq, beq_iff_eq]
  rintro (hh | hh)
  · exact hi (hh ▸ this.1)
  · exact hi (hh ▸ this.2)

/-! ### Counter-consistency preservation -/

/-- Lookup after the two endpoint counter bumps of a new edge. -/
theorem dbFind_double_bump (D : List (String × Paper)) (a b k : String)
    (hab : ¬b = a) :
    dbFind (dbUpdate (dbUpdate D a bump1) b bump1) k =
      if k = b then (dbFind D b).map bump1
      else if k = a then (dbFind D a).map bump1
      else dbFind D k := by
  rw [dbFind_dbUpdate]
  by_cases hk1 : k = b
  · rw [if_pos hk1, if_pos hk1, dbFind_dbUpdate, if_neg hab]
  · rw [if_neg hk1, if_neg hk1, dbFind_dbUpdate]

/-- One loop iteration whose entry does not carry the root identifier
itself preserves the counter-consistency invariant. -/
theorem processEntry_inv (paper_id mainPid : String) (isRef : Bool)
    (s : LoopSt) (entry : PaperMeta)
    (hinv : LoopInv paper_id s)
    (hne : entry.paperId ≠ some paper_id) :
    LoopInv paper_id (processEntry paper_id mainPid isRef s entry) := by
  obtain ⟨hnd, hkm, hednd, hend, hcnt, hpid⟩ := hinv
  by_cases hcr : s.crashed
  · rw [processEntry_of_crashed _ _ _ _ _ hcr]
    exact ⟨hnd, hkm, hednd, hend, hcnt, hpid⟩
  · rw [Bool.not_eq_true] at hcr
    cases hid : validId entry.paperId with
    | none =>
        rw [processEntry_skip _ _ _ _ _ hid]
        exact ⟨hnd, hkm, hednd, hend, hcnt, hpid⟩
    | some eid =>
        obtain ⟨hpidEq, hine⟩ := validId_eq_some hid
        have heidne : ¬eid = paper_id := fun h => hne (h ▸ hpidEq)
        rw [processEntry_eq paper_id mainPid isRef s entry hcr hid]
        unfold LoopInv
        have hnd1 : ((appendId mainPid isRef eid s.db).map Prod.fst).Nodup := by
          rw [appendId_keys]; exact hnd
        have hkm1 : ∀ k p, dbFind (appendId mainPid isRef eid s.db) k = some p →
            p.paper_id = k := by
          intro k p hp
          rw [dbFind_appendId] at hp
          by_cases hk : k = mainPid
          · rw [if_pos hk] at hp
            cases hq : dbFind s.db mainPid with
            | none => rw [hq] at hp; simp at hp
            | some q =>
                rw [hq] at hp
                simp only [Option.map_some', Option.some.injEq] at hp
                have hq2 := hkm mainPid q hq
                subst hp
                rw [hk]
                cases isRef <;> exact hq2
          · rw [if_neg hk] at hp
            exact hkm k p hp
        have hcnt1 : ∀ k p, dbFind (appendId mainPid isRef eid s.db) k = some p →
            p.edge_count = degree s.edges k := by
          intro k p hp
          rw [dbFind_appendId] at hp
          by_cases hk : k = mainPid
          · rw [if_pos hk] at hp
            cases hq : dbFind s.db mainPid with
            | none => rw [hq] at hp; simp at hp
            | some q =>
                rw [hq] at hp
                simp only [Option.map_some', Option.some.injEq] at hp
                have hq2 := hcnt mainPid q hq
                subst hp
                rw [hk]
                cases isRef <;> exact hq2
          · rw [if_neg hk] at hp
            exact hcnt k p hp
        -- uniform treatment of the two upsert branches
        have hmain : ∃ D : List (String × Paper),
            (upsertNeighbor eid entry (appendId mainPid isRef eid s.db)
              s.new_papers).1 = D ∧
            ((D.map Prod.fst).Nodup) ∧
            (∀ k p, dbFind D k = some p → p.paper_id = k) ∧
            (∀ k p, dbFind D k = some p → p.edge_count = degree s.edges k) ∧
            paper_id ∈ D.map Prod.fst ∧ eid ∈ D.map Prod.fst ∧
            (∀ e ∈ s.edges, e.1 ∈ D.map Prod.fst ∧ e.2 ∈ D.map Prod.fst) := by
          by_cases hbe : eid ∈ s.db.map Prod.fst
          · refine ⟨appendId mainPid isRef eid s.db,
              by rw [upsertNeighbor_of_mem entry s.new_papers
                (by rw [appendId_keys]; exact hbe)],
              hnd1, hkm1, hcnt1,
              by rw [appendId_keys]; exact hpid,
              by rw [appendId_keys]; exact hbe, ?_⟩
            intro e he
            rw [appendId_keys]
            exact hend e he
          · refine ⟨(appendId mainPid isRef eid s.db) ++
              [(eid, mkPaper entry eid false)],
              by rw [upsertNeighbor_of_not_mem s.new_papers
                (by rw [appendId_keys]; exact hbe) hpidEq hine],
              ?_, ?_, ?_, ?_, ?_, ?_⟩
            · simp only [List.map_append, List.map_cons, List.map_nil]
              rw [appendId_keys, List.nodup_append]
              refine ⟨hnd, List.nodup_singleton _, ?_⟩
              intro y hy hy2
              simp only [List.mem_singleton] at hy2
              subst hy2
              exact hbe hy
            · intro k p hp
              rw [dbFind_append] at hp
              cases hq : dbFind (appendId mainPid isRef eid s.db) k with
              | some q =>
                  rw [hq] at hp
                  simp only [Option.some.injEq] at hp
                  subst hp
                  exact hkm1 k q hq
              | none =>
                  rw [hq] at hp
                  by_cases hk : eid = k
                  · rw [dbFind_cons_pos _ _ hk] at hp
                    simp only [Option.some.injEq] at hp
                    subst hp
                    exact hk ▸ rfl
                  · rw [dbFind_cons_neg _ _ hk] at hp
                    simp [dbFind] at hp
            · intro k p hp
              rw [dbFind_append] at hp
              cases hq : dbFind (appendId mainPid isRef eid s.db) k with
              | some q =>
                  rw [hq] at hp
                  simp only [Option.some.injEq] at hp
                  subst hp
                  exact hcnt1 k q hq
              | none =>
                  rw [hq] at hp
                  by_cases hk : eid = k
                  · rw [dbFind_cons_pos _ _ hk] at hp
                    simp only [Option.some.injEq] at hp
                    subst hp
                    rw [← hk, degree_eq_zero_of_not_mem hend hbe]
                    rfl
                  · rw [dbFind_cons_neg _ _ hk] at hp
                    simp [dbFind] at hp
            · simp only [List.map_append, List.mem_append]
              left
              rw [appendId_keys]
              exact hpid
            · simp only [List.map_append, List.mem_append]
              right
              simp
            · intro e he
              simp only [List.map_append, List.mem_append]
              rw [appendId_keys]
              exact ⟨Or.inl (hend e he).1, Or.inl (hend e he).2⟩
        obtain ⟨D, hD, hndD, hkmD, hcntD, hpidD, heidD, hendD⟩ := hmain
        rw [hD]
        by_cases hee : sortPair paper_id eid ∈ s.edges
        · rw [addEdgeStep_of_mem _ s.new_edges hee]
          exact ⟨hndD, hkmD, hednd, hendD, hcntD, hpidD⟩
        · rw [addEdgeStep_of_not_mem s.new_edges hee hpidD heidD]
          refine ⟨?_, ?_, ?_, ?_, ?_, ?_⟩
          · simp only [dbUpdate_keys]; exact hndD
          · intro k p hp
            rw [dbFind_double_bump D paper_id eid k heidne] at hp
            by_cases hk1 : k = eid
            · rw [if_pos hk1] at hp
              cases hq : dbFind D eid with
              | none => rw [hq] at hp; simp at hp
              | some q =>
                  rw [hq] at hp
                  simp only [Option.map_some', Option.some.injEq] at hp
                  subst hp
                  rw [hk1]
                  exact hkmD eid q hq
            · rw [if_neg hk1] at hp
              by_cases hk2 : k = paper_id
              · rw [if_pos hk2] at hp
                cases hq : dbFind D paper_id with
                | none => rw [hq] at hp; simp at hp
                | some q =>
                    rw [hq] at hp
                    simp only [Option.map_some', Option.some.injEq] at hp
                    subst hp
                    rw [hk2]
                    exact hkmD paper_id q hq
              · rw [if_neg hk2] at hp
                exact hkmD k p hp
          · rw [List.nodup_append]
            refine ⟨hednd, List.nodup_singleton _, ?_⟩
            intro e he he2
            simp only [List.mem_singleton] at he2
            subst he2
            exact hee he
          · intro e he
            simp only [dbUpdate_keys]
            rcases List.mem_append.mp he with he | he
            · exact hendD e he
            · simp only [List.mem_singleton] at he
              subst he
              constructor
              · rcases sortPair_fst_mem paper_id eid with h | h <;> rw [h]
                · exact hpidD
                · exact heidD
              · rcases sortPair_snd_mem paper_id eid with h | h <;> rw [h]
                · exact hpidD
                · exact heidD
          · intro k p hp
            rw [dbFind_double_bump D paper_id eid k heidne] at hp
            rw [degree_append_sortPair]
            by_cases hk1 : k = eid
            · rw [if_pos hk1] at hp
              cases hq : dbFind D eid with
              | none => rw [hq] at hp; simp at hp
              | some q =>
                  rw [hq] at hp
                  simp only [Option.map_some', Option.some.injEq] at hp
                  subst hp
                  rw [if_pos (Or.inr hk1.symm)]
                  have hq2 := hcntD eid q hq
                  subst hk1
                  show q.edge_count + 1 = _
                  rw [hq2]
            · rw [if_neg hk1] at hp
              by_cases hk2 : k = paper_id
              · rw [if_pos hk2] at hp
                cases hq : dbFind D paper_id with
                | none => rw [hq] at hp; simp at hp
                | some q =>
                    rw [hq] at hp
                    simp only [Option.map_some', Option.some.injEq] at hp
                    subst hp
                    rw [if_pos (Or.inl hk2.symm)]
                    have hq2 := hcntD paper_id q hq
                    subst hk2
                    show q.edge_count + 1 = _
                    rw [hq2]
              · rw [if_neg hk2] at hp
                rw [if_neg (by
                  rintro (hh | hh)
                  · exact hk2 hh.symm
                  · exact hk1 hh.symm)]
                rw [Nat.add_zero]
                exact hcntD k p hp
          · simp only [dbUpdate_keys]; exact hpidD

theorem foldl_processEntry_inv (paper_id mainPid : String) (isRef : Bool)
    (entries : List PaperMeta) (s : LoopSt)
    (hinv : LoopInv paper_id s)
    (hne : ∀ e ∈ entries, e.paperId ≠ some paper_id) :
    LoopInv paper_id (entries.foldl (processEntry paper_id mainPid isRef) s) := by
  induction entries generalizing s with
  | nil => exact hinv
  | cons entry rest ih =>
      rw [List.foldl_cons]
      exact ih (processEntry paper_id mainPid isRef s entry)
        (processEntry_inv paper_id mainPid isRef s entry hinv
          (hne entry (List.mem_cons_self _ _)))
        (fun e he => hne e (List.mem_cons_of_mem _ he))

/-- A benign ingestion call preserves the state invariant. -/
theorem process_inv (st : GraphState) (pid : String) (fetched : Option PaperData)
    (hinv : Inv st) (hg : goodFetch pid fetched) :
    Inv (process_main_paper st pid fetched).1 := by
  obtain ⟨hnd, hkm, hednd, hend, hcnt⟩ := hinv
  have hfetchInv : Inv (process_fetch st pid fetched).1 := by
    cases fetched with
    | none => exact ⟨hnd, hkm, hednd, hend, hcnt⟩
    | some pd =>
        obtain ⟨hmeta, hrefs, hcits⟩ := hg
        by_cases hfal : strFalsy pd.meta.paperId = true
        · simp only [process_fetch, add_paper_to_db_falsy st.papers_db hfal true]
          exact ⟨hnd, hkm, hednd, hend, hcnt⟩
        · have hmeta2 : pd.meta.paperId = some pid := by
            rcases hmeta with h | h
            · exact h
            · exact absurd h hfal
          have hpne : pid ≠ "" := by
            intro h
            apply hfal
            rw [hmeta2, h]
            rfl
          -- the upsert of the root preserves the invariant pieces
          have hdb0 : ∃ mp db0,
              add_paper_to_db st.papers_db pd.meta true = (some mp, db0) ∧
              ((db0.map Prod.fst).Nodup) ∧
              (∀ k p, dbFind db0 k = some p → p.paper_id = k) ∧
              (∀ k p, dbFind db0 k = some p → p.edge_count = degree st.edges k) ∧
              (∀ e ∈ st.edges, e.1 ∈ db0.map Prod.fst ∧ e.2 ∈ db0.map Prod.fst) ∧
              pid ∈ db0.map Prod.fst ∧ mp.paper_id = pid := by
            cases hfind : dbFind st.papers_db pid with
            | some p =>
                rw [add_paper_to_db_existing hmeta2 hpne hfind true]
                refine ⟨{ p with is_main := true },
                  dbUpdate st.papers_db pid (fun q => { q with is_main := true }),
                  by simp, by rw [dbUpdate_keys]; exact hnd, ?_, ?_,
                  by intro e he; rw [dbUpdate_keys]; exact hend e he,
                  by rw [dbUpdate_keys]; exact mem_of_dbFind_eq_some hfind,
                  hkm pid p hfind⟩
                · intro k q hq
                  rw [dbFind_dbUpdate] at hq
                  by_cases hk : k = pid
                  · rw [if_pos hk] at hq
                    cases hq2 : dbFind st.papers_db pid with
                    | none => rw [hq2] at hq; simp at hq
                    | some q2 =>
                        rw [hq2] at hq
                        simp only [Option.map_some', Option.some.injEq] at hq
                        subst hq
                        rw [hk]
                        exact hkm pid q2 hq2
                  · rw [if_neg hk] at hq
                    exact hkm k q hq
                · intro k q hq
                  rw [dbFind_dbUpdate] at hq
                  by_cases hk : k = pid
                  · rw [if_pos hk] at hq
                    cases hq2 : dbFind st.papers_db pid with
                    | none => rw [hq2] at hq; simp at hq
                    | some q2 =>
                        rw [hq2] at hq
                        simp only [Option.map_some', Option.some.injEq] at hq
                        subst hq
                        rw [hk]
                        exact hcnt pid q2 hq2
                  · rw [if_neg hk] at hq
                    exact hcnt k q hq
            | none =>
                rw [add_paper_to_db_new hmeta2 hpne hfind true]
                have hpnm : pid ∉ st.papers_db.map Prod.fst :=
                  (dbFind_eq_none_iff _ _).mp hfind
                refine ⟨mkPaper pd.meta pid true,
                  st.papers_db ++ [(pid, mkPaper pd.meta pid true)],
                  rfl, ?_, ?_, ?_, ?_, ?_, rfl⟩
                · simp only [List.map_append, List.map_cons, List.map_nil]
                  rw [List.nodup_append]
                  refine ⟨hnd, List.nodup_singleton _, ?_⟩
                  intro y hy hy2
                  simp only [List.mem_singleton] at hy2
                  subst hy2
                  exact hpnm hy
                · intro k q hq
                  rw [dbFind_append] at hq
                  cases hq2 : dbFind st.papers_db k with
                  | some q2 =>
                      rw [hq2] at hq
                      simp only [Option.some.injEq] at hq
                      subst hq
                      exact hkm k q2 hq2
                  | none =>
                      rw [hq2] at hq
                      by_cases hk : pid = k
                      · rw [dbFind_cons_pos _ _ hk] at hq
                        simp only [Option.some.injEq] at hq
                        subst hq
                        exact hk ▸ rfl
                      · rw [dbFind_cons_neg _ _ hk] at hq
                        simp [dbFind] at hq
                · intro k q hq
                  rw [dbFind_append] at hq
                  cases hq2 : dbFind st.papers_db k with
                  | some q2 =>
                      rw [hq2] at hq
                      simp only [Option.some.injEq] at hq
                      subst hq
                      exact hcnt k q2 hq2
                  | none =>
                      rw [hq2] at hq
                      by_cases hk : pid = k
                      · rw [dbFind_cons_pos _ _ hk] at hq
                        simp only [Option.some.injEq] at hq
                        subst hq
                        rw [← hk, degree_eq_zero_of_not_mem hend hpnm]
                        rfl
                      · rw [dbFind_cons_neg _ _ hk] at hq
                        simp [dbFind] at hq
                · intro e he
                  simp only [List.map_append, List.mem_append]
                  exact ⟨Or.inl (hend e he).1, Or.inl (hend e he).2⟩
                · simp only [List.map_append, List.mem_append]
                  right
                  simp
          obtain ⟨mp, db0, hadd, h1, h2, h3, h4, h5, h6⟩ := hdb0
          simp only [process_fetch, hadd, h6]
          have hloop0 : LoopInv pid ⟨db0, st.edges, 0, 0, false⟩ :=
            ⟨h1, h2, hednd, h4, h3, h5⟩
          have hloop1 := foldl_processEntry_inv pid pid true pd.references
            ⟨db0, st.edges, 0, 0, false⟩ hloop0 hrefs
          have hloop2 := foldl_processEntry_inv pid pid false pd.citations
            _ hloop1 hcits
          obtain ⟨g1, g2, g3, g4, g5, g6⟩ := hloop2
          by_cases hcr2 : (pd.citations.foldl (processEntry pid pid false)
              (pd.references.foldl (processEntry pid pid true)
                ⟨db0, st.edges, 0, 0, false⟩)).crashed = true
          · rw [if_pos hcr2]
            exact ⟨g1, g2, g3, g4, g5⟩
          · rw [if_neg hcr2]
            exact ⟨g1, g2, g3, g4, g5⟩
  unfold process_main_paper
  cases hfind : dbFind st.papers_db pid with
  | none =>
      simpa using hfetchInv
  | some p0 =>
      by_cases hm : p0.is_main
      · simp only [hm, if_true]
        exact ⟨hnd, hkm, hednd, hend, hcnt⟩
      · simp only [hm, if_false]
        simpa using hfetchInv

/-- The state invariant holds in every state reachable with benign
provider responses. -/
theorem reachableGood_inv {st : GraphState} (h : ReachableGood st) : Inv st := by
  induction h with
  | init =>
      refine ⟨List.nodup_nil, ?_, List.nodup_nil, ?_, ?_⟩
      · intro k p hp; simp [dbFind, emptyState] at hp
      · intro e he; simp [emptyState] at he
      · intro k p hp; simp [dbFind, emptyState] at hp
  | ingest st pid fetched _ hg ih => exact process_inv st pid fetched ih hg
  | clear st _ _ =>
      refine ⟨List.nodup_nil, ?_, List.nodup_nil, ?_, ?_⟩
      · intro k p hp; simp [dbFind, api_clear, emptyState] at hp
      · intro e he; simp [api_clear, emptyState] at he
      · intro k p hp; simp [dbFind, api_clear, emptyState] at hp

/-! ### Edge-set well-formedness on arbitrary runs -/

theorem processEntry_edgesWF (paper_id mainPid : String) (isRef : Bool)
    (s : LoopSt) (entry : PaperMeta)
    (h : s.edges.Nodup ∧ ∀ e ∈ s.edges, sortPair e.1 e.2 = e) :
    (processEntry paper_id mainPid isRef s entry).edges.Nodup ∧
    ∀ e ∈ (processEntry paper_id mainPid isRef s entry).edges,
      sortPair e.1 e.2 = e := by
  rcases processEntry_edges_plain paper_id mainPid isRef s entry with
    heq | ⟨i, _, hmem, heq⟩
  · rw [heq]; exact h
  · rw [heq]
    constructor
    · rw [List.nodup_append]
      refine ⟨h.1, List.nodup_singleton _, ?_⟩
      intro e he he2
      simp only [List.mem_singleton] at he2
      subst he2
      exact hmem he
    · intro e he
      rcases List.mem_append.mp he with he | he
      · exact h.2 e he
      · simp only [List.mem_singleton] at he
        subst he
        exact sortPair_canonical paper_id i

theorem foldl_processEntry_edgesWF (paper_id mainPid : String) (isRef : Bool)
    (entries : List PaperMeta) (s : LoopSt)
    (h : s.edges.Nodup ∧ ∀ e ∈ s.edges, sortPair e.1 e.2 = e) :
    (entries.foldl (processEntry paper_id mainPid isRef) s).edges.Nodup ∧
    ∀ e ∈ (entries.foldl (processEntry paper_id mainPid isRef) s).edges,
      sortPair e.1 e.2 = e := by
  induction entries generalizing s with
  | nil => exact h
  | cons entry rest ih =>
      rw [List.foldl_cons]
      exact ih (processEntry paper_id mainPid isRef s entry)
        (processEntry_edgesWF paper_id mainPid isRef s entry h)

/-- Any ingestion call, whatever the provider returned, keeps the edge
set duplicate-free and canonical. -/
theorem process_edgesWF (st : GraphState) (pid : String)
    (fetched : Option PaperData)
    (h : EdgesWF st) : EdgesWF (process_main_paper st pid fetched).1 := by
  obtain ⟨h1, h2⟩ := h
  have hfetch : EdgesWF (process_fetch st pid fetched).1 := by
    cases fetched with
    | none => exact ⟨h1, h2⟩
    | some pd =>
        rcases hadd : add_paper_to_db st.papers_db pd.meta true with ⟨mpOpt, db0⟩
        cases mpOpt with
        | none =>
            simp only [process_fetch, hadd]
            exact ⟨h1, h2⟩
        | some mp =>
            simp only [process_fetch, hadd]
            have hl1 := foldl_processEntry_edgesWF pid mp.paper_id true
              pd.references ⟨db0, st.edges, 0, 0, false⟩ ⟨h1, h2⟩
            have hl2 := foldl_processEntry_edgesWF pid mp.paper_id false
              pd.citations _ hl1
            by_cases hcr : (pd.citations.foldl (processEntry pid mp.paper_id false)
                (pd.references.foldl (processEntry pid mp.paper_id true)
                  ⟨db0, st.edges, 0, 0, false⟩)).crashed = true
            · rw [if_pos hcr]
              exact hl2
            · rw [if_neg hcr]
              exact hl2
  unfold process_main_paper
  cases hfind : dbFind st.papers_db pid with
  | none => simpa using hfetch
  | some p0 =>
      by_cases hm : p0.is_main
      · simp only [hm, if_true]
        exact ⟨h1, h2⟩
      · simp only [hm, if_false]
        simpa using hfetch

/-- Edge-set well-formedness holds in every reachable state. -/
theorem reachable_edgesWF {st : GraphState} (h : Reachable st) : EdgesWF st := by
  induction h with
  | init => exact ⟨List.nodup_nil, by intro e he; simp [emptyState] at he⟩
  | ingest st pid fetched _ ih => exact process_edgesWF st pid fetched ih
  | clear st _ _ =>
      exact ⟨List.nodup_nil, by intro e he; simp [api_clear, emptyState] at he⟩

/-! ### Frame effects: how stored records can evolve -/

theorem evolves_refl (p : Paper) : Evolves p p :=
  ⟨rfl, rfl, rfl, rfl, rfl, rfl, rfl, fun h => h, le_refl _,
    ⟨[], by simp⟩, ⟨[], by simp⟩⟩

theorem evolves_trans {p q r : Paper} (h1 : Evolves p q) (h2 : Evolves q r) :
    Evolves p r := by
  obtain ⟨a1, a2, a3, a4, a5, a6, a7, a8, a9, ⟨t1, a10⟩, ⟨t2, a11⟩⟩ := h1
  obtain ⟨b1, b2, b3, b4, b5, b6, b7, b8, b9, ⟨u1, b10⟩, ⟨u2, b11⟩⟩ := h2
  refine ⟨b1.trans a1, b2.trans a2, b3.trans a3, b4.trans a4, b5.trans a5,
    b6.trans a6, b7.trans a7, fun h => b8 (a8 h), le_trans a9 b9,
    ⟨t1 ++ u1, ?_⟩, ⟨t2 ++ u2, ?_⟩⟩
  · rw [b10, a10, List.append_assoc]
  · rw [b11, a11, List.append_assoc]

theorem evolves_appendRef (p : Paper) (l : List String) :
    Evolves p { p with references := p.references ++ l } :=
  ⟨rfl, rfl, rfl, rfl, rfl, rfl, rfl, fun h => h, le_refl _,
    ⟨l, rfl⟩, ⟨[], by simp⟩⟩

theorem evolves_appendCite (p : Paper) (l : List String) :
    Evolves p { p with citations := p.citations ++ l } :=
  ⟨rfl, rfl, rfl, rfl, rfl, rfl, rfl, fun h => h, le_refl _,
    ⟨[], by simp⟩, ⟨l, rfl⟩⟩

theorem evolves_bump (p : Paper) (m : Nat) :
    Evolves p { p with edge_count := p.edge_count + m } :=
  ⟨rfl, rfl, rfl, rfl, rfl, rfl, rfl, fun h => h, Nat.le_add_right _ _,
    ⟨[], by simp⟩, ⟨[], by simp⟩⟩

theorem evolves_setMain (p : Paper) :
    Evolves p { p with is_main := true } :=
  ⟨rfl, rfl, rfl, rfl, rfl, rfl, rfl, fun _ => rfl, le_refl _,
    ⟨[], by simp⟩, ⟨[], by simp⟩⟩

/-- Across one loop iteration, every stored record survives and only
evolves along the allowed directions. -/
theorem processEntry_evolves (paper_id mainPid : String) (isRef : Bool)
    (s : LoopSt) (entry : PaperMeta) {k : String} {p : Paper}
    (hp : dbFind s.db k = some p) :
    ∃ q, dbFind (processEntry paper_id mainPid isRef s entry).db k = some q ∧
      Evolves p q := by
  by_cases hcr : s.crashed
  · rw [processEntry_of_crashed _ _ _ _ _ hcr]
    exact ⟨p, hp, evolves_refl p⟩
  · rw [Bool.not_eq_true] at hcr
    cases hid : validId entry.paperId with
    | none =>
        rw [processEntry_skip _ _ _ _ _ hid]
        exact ⟨p, hp, evolves_refl p⟩
    | some eid =>
        rw [processEntry_eq paper_id mainPid isRef s entry hcr hid]
        simp only
        -- step 1: the append to the stored root record
        have h1 : ∃ q1, dbFind (appendId mainPid isRef eid s.db) k = some q1 ∧
            Evolves p q1 := by
          rw [dbFind_appendId]
          by_cases hk : k = mainPid
          · rw [if_pos hk, ← hk, hp]
            cases isRef
            · exact ⟨_, rfl, evolves_appendCite p [eid]⟩
            · exact ⟨_, rfl, evolves_appendRef p [eid]⟩
          · rw [if_neg hk]
            exact ⟨p, hp, evolves_refl p⟩
        obtain ⟨q1, hq1, he1⟩ := h1
        -- step 2: the possible insertion of the neighbor
        have h2 : ∃ q2, dbFind (upsertNeighbor eid entry
            (appendId mainPid isRef eid s.db) s.new_papers).1 k = some q2 ∧
            Evolves p q2 := by
          unfold upsertNeighbor
          cases hf : dbFind (appendId mainPid isRef eid s.db) eid with
          | some _ => exact ⟨q1, hq1, he1⟩
          | none =>
              obtain ⟨hpidEq, hine⟩ := validId_eq_some hid
              rw [add_paper_to_db_new hpidEq hine hf false]
              refine ⟨q1, ?_, he1⟩
              rw [dbFind_append, hq1]
        obtain ⟨q2, hq2, he2⟩ := h2
        -- step 3: the counter bumps of the edge step
        obtain ⟨m, hm⟩ := addEdgeStep_dbFind paper_id eid
          (upsertNeighbor eid entry (appendId mainPid isRef eid s.db)
            s.new_papers).1 s.edges s.new_edges k
        rw [hq2] at hm
        simp only [Option.map_some'] at hm
        exact ⟨_, hm, evolves_trans he2 (evolves_bump q2 m)⟩

theorem foldl_processEntry_evolves (paper_id mainPid : String) (isRef : Bool)
    (entries : List PaperMeta) (s : LoopSt) {k : String} {p : Paper}
    (hp : dbFind s.db k = some p) :
    ∃ q, dbFind (entries.foldl (processEntry paper_id mainPid isRef) s).db k
        = some q ∧ Evolves p q := by
  induction entries generalizing s p with
  | nil => exact ⟨p, hp, evolves_refl p⟩
  | cons entry rest ih =>
      rw [List.foldl_cons]
      obtain ⟨q1, hq1, he1⟩ :=
        processEntry_evolves paper_id mainPid isRef s entry hp
      obtain ⟨q2, hq2, he2⟩ := ih (processEntry paper_id mainPid isRef s entry) hq1
      exact ⟨q2, hq2, evolves_trans he1 he2⟩

/-- Across one whole ingestion call, whatever the provider returned,
every stored record survives and only evolves along the allowed
directions. -/
theorem process_evolves (st : GraphState) (pid : String)
    (fetched : Option PaperData) {k : String} {p : Paper}
    (hp : dbFind st.papers_db k = some p) :
    ∃ q, dbFind (process_main_paper st pid fetched).1.papers_db k = some q ∧
      Evolves p q := by
  have hfetch : ∃ q, dbFind (process_fetch st pid fetched).1.papers_db k
      = some q ∧ Evolves p q := by
    cases fetched with
    | none => exact ⟨p, hp, evolves_refl p⟩
    | some pd =>
        rcases hadd : add_paper_to_db st.papers_db pd.meta true with ⟨mpOpt, db0⟩
        have hdb0 : ∃ q0, dbFind db0 k = some q0 ∧ Evolves p q0 := by
          cases hmid : pd.meta.paperId with
          | none =>
              simp only [add_paper_to_db, hmid, Prod.mk.injEq] at hadd
              rw [← hadd.2]
              exact ⟨p, hp, evolves_refl p⟩
          | some mid =>
              simp only [add_paper_to_db, hmid] at hadd
              by_cases hemp : mid = ""
              · rw [if_pos hemp] at hadd
                simp only [Prod.mk.injEq] at hadd
                rw [← hadd.2]
                exact ⟨p, hp, evolves_refl p⟩
              · rw [if_neg hemp] at hadd
                cases hfind : dbFind st.papers_db mid with
                | some ex =>
                    simp only [hfind, eq_self_iff_true, if_true,
                      Prod.mk.injEq] at hadd
                    rw [← hadd.2]
                    rw [dbFind_dbUpdate]
                    by_cases hk : k = mid
                    · rw [if_pos hk, ← hk, hp]
                      exact ⟨_, rfl, evolves_setMain p⟩
                    · rw [if_neg hk]
                      exact ⟨p, hp, evolves_refl p⟩
                | none =>
                    simp only [hfind, Prod.mk.injEq] at hadd
                    rw [← hadd.2]
                    refine ⟨p, ?_, evolves_refl p⟩
                    rw [dbFind_append, hp]
        obtain ⟨q0, hq0, he0⟩ := hdb0
        cases mpOpt with
        | none =>
            simp only [process_fetch, hadd]
            exact ⟨q0, hq0, he0⟩
        | some mp =>
            simp only [process_fetch, hadd]
            obtain ⟨q1, hq1, he1⟩ := foldl_processEntry_evolves pid mp.paper_id
              true pd.references ⟨db0, st.edges, 0, 0, false⟩ hq0
            obtain ⟨q2, hq2, he2⟩ := foldl_processEntry_evolves pid mp.paper_id
              false pd.citations _ hq1
            by_cases hcr : (pd.citations.foldl (processEntry pid mp.paper_id false)
                (pd.references.foldl (processEntry pid mp.paper_id true)
                  ⟨db0, st.edges, 0, 0, false⟩)).crashed = true
            · rw [if_pos hcr]
              exact ⟨q2, hq2, evolves_trans he0 (evolves_trans he1 he2)⟩
            · rw [if_neg hcr]
              exact ⟨q2, hq2, evolves_trans he0 (evolves_trans he1 he2)⟩
  unfold process_main_paper
  cases hfind : dbFind st.papers_db pid with
  | none => simpa using hfetch
  | some p0 =>
      by_cases hm : p0.is_main
      · simp only [hm, if_true]
        exact ⟨p, hp, evolves_refl p⟩
      · simp only [hm, if_false]
        simpa using hfetch

/-! ### The short-circuit and the failure paths -/

/-- When the requested root is already stored as main, the call returns
immediately: same state whatever the provider would have answered, a
result with success false, the message Paper already added, both
counters zero, and the projection of the existing record. -/
theorem process_short_circuit (st : GraphState) (pid : String) {p : Paper}
    (hfind : dbFind st.papers_db pid = some p) (hmain : p.is_main = true)
    (fetched : Option PaperData) :
    process_main_paper st pid fetched =
      (st, Outcome.ok
        { success := false
          message := "Paper already added"
          paper := some (paper_to_dict p)
          new_papers := 0
          new_edges := 0 }) := by
  simp only [process_main_paper, hfind, hmain, if_true]

/-- When the provider fetch fails, or the payload carries no usable
identifier, the call mutates nothing and reports a failure with a
non-empty message and zero counters. -/
theorem process_failure (st : GraphState) (pid : String)
    (fetched : Option PaperData)
    (h : fetched = none ∨ ∃ pd, fetched = some pd ∧ strFalsy pd.meta.paperId = true) :
    (process_main_paper st pid fetched).1 = st ∧
    ∃ r, (process_main_paper st pid fetched).2 = Outcome.ok r ∧
      r.success = false ∧ r.message ≠ "" ∧ r.new_papers = 0 ∧ r.new_edges = 0 := by
  have hfetch : (process_fetch st pid fetched).1 = st ∧
      ∃ r, (process_fetch st pid fetched).2 = Outcome.ok r ∧
        r.success = false ∧ r.message ≠ "" ∧ r.new_papers = 0 ∧ r.new_edges = 0 := by
    rcases h with h | ⟨pd, h, hfal⟩
    · subst h
      exact ⟨rfl,
        ⟨⟨false, "Failed to fetch paper from Semantic Scholar", none, 0, 0⟩,
          rfl, rfl, by decide, rfl, rfl⟩⟩
    · subst h
      simp only [process_fetch, add_paper_to_db_falsy st.papers_db hfal true]
      exact ⟨trivial,
        ⟨⟨false, "Failed to process paper data", none, 0, 0⟩,
          rfl, rfl, by decide, rfl, rfl⟩⟩
  unfold process_main_paper
  cases hfind : dbFind st.papers_db pid with
  | none => simpa using hfetch
  | some p0 =>
      by_cases hm : p0.is_main
      · simp only [hm, if_true]
        refine ⟨trivial,
          ⟨⟨false, "Paper already added", some (paper_to_dict p0), 0, 0⟩,
            rfl, rfl, ?_, rfl, rfl⟩⟩
        show ("Paper already added" : String) ≠ ""
        decide
      · simp only [hm, if_false]
        simpa using hfetch

/-! ### Key and edge uniqueness on arbitrary runs -/

theorem processEntry_keys_nodup (paper_id mainPid : String) (isRef : Bool)
    (s : LoopSt) (entry : PaperMeta)
    (h : (s.db.map Prod.fst).Nodup) :
    ((processEntry paper_id mainPid isRef s entry).db.map Prod.fst).Nodup := by
  rcases processEntry_keys_plain paper_id mainPid isRef s entry with
    heq | ⟨i, _, hmem, heq⟩
  · rw [heq]; exact h
  · rw [heq, List.nodup_append]
    refine ⟨h, List.nodup_singleton _, ?_⟩
    intro y hy hy2
    simp only [List.mem_singleton] at hy2
    subst hy2
    exact hmem hy

theorem processEntry_edges_nodup (paper_id mainPid : String) (isRef : Bool)
    (s : LoopSt) (entry : PaperMeta)
    (h : s.edges.Nodup) :
    (processEntry paper_id mainPid isRef s entry).edges.Nodup := by
  rcases processEntry_edges_plain paper_id mainPid isRef s entry with
    heq | ⟨i, _, hmem, heq⟩
  · rw [heq]; exact h
  · rw [heq, List.nodup_append]
    refine ⟨h, List.nodup_singleton _, ?_⟩
    intro y hy hy2
    simp only [List.mem_singleton] at hy2
    subst hy2
    exact hmem hy

theorem foldl_processEntry_nodup (paper_id mainPid : String) (isRef : Bool)
    (entries : List PaperMeta) (s : LoopSt)
    (h1 : (s.db.map Prod.fst).Nodup) (h2 : s.edges.Nodup) :
    ((entries.foldl (processEntry paper_id mainPid isRef) s).db.map Prod.fst).Nodup ∧
    (entries.foldl (processEntry paper_id mainPid isRef) s).edges.Nodup := by
  induction entries generalizing s with
  | nil => exact ⟨h1, h2⟩
  | cons entry rest ih =>
      rw [List.foldl_cons]
      exact ih (processEntry paper_id mainPid isRef s entry)
        (processEntry_keys_nodup paper_id mainPid isRef s entry h1)
        (processEntry_edges_nodup paper_id mainPid isRef s entry h2)

/-- Any ingestion call keeps the store keys and the edge set
duplicate-free. -/
theorem process_nodup (st : GraphState) (pid : String)
    (fetched : Option PaperData)
    (h1 : (st.papers_db.map Prod.fst).Nodup) (h2 : st.edges.Nodup) :
    ((process_main_paper st pid fetched).1.papers_db.map Prod.fst).Nodup ∧
    (process_main_paper st pid fetched).1.edges.Nodup := by
  have hfetch : ((process_fetch st pid fetched).1.papers_db.map Prod.fst).Nodup ∧
      (process_fetch st pid fetched).1.edges.Nodup := by
    cases fetched with
    | none => exact ⟨h1, h2⟩
    | some pd =>
        rcases hadd : add_paper_to_db st.papers_db pd.meta true with ⟨mpOpt, db0⟩
        have hdb0 : (db0.map Prod.fst).Nodup := by
          cases hmid : pd.meta.paperId with
          | none =>
              simp only [add_paper_to_db, hmid, Prod.mk.injEq] at hadd
              rw [← hadd.2]
              exact h1
          | some mid =>
              simp only [add_paper_to_db, hmid] at hadd
              by_cases hemp : mid = ""
              · rw [if_pos hemp] at hadd
                simp only [Prod.mk.injEq] at hadd
                rw [← hadd.2]
                exact h1
              · rw [if_neg hemp] at hadd
                cases hfind : dbFind st.papers_db mid with
                | some ex =>
                    simp only [hfind, eq_self_iff_true, if_true,
                      Prod.mk.injEq] at hadd
                    rw [← hadd.2, dbUpdate_keys]
                    exact h1
                | none =>
                    simp only [hfind, Prod.mk.injEq] at hadd
                    rw [← hadd.2]
                    simp only [List.map_append, List.map_cons, List.map_nil]
                    rw [List.nodup_append]
                    refine ⟨h1, List.nodup_singleton _, ?_⟩
                    intro y hy hy2
                    simp only [List.mem_singleton] at hy2
                    subst hy2
                    exact (dbFind_eq_none_iff _ _).mp hfind hy
        cases mpOpt with
        | none =>
            simp only [process_fetch, hadd]
            exact ⟨hdb0, h2⟩
        | some mp =>
            simp only [process_fetch, hadd]
            have hl1 := foldl_processEntry_nodup pid mp.paper_id true
              pd.references ⟨db0, st.edges, 0, 0, false⟩ hdb0 h2
            have hl2 := foldl_processEntry_nodup pid mp.paper_id false
              pd.citations _ hl1.1 hl1.2
            by_cases hcr : (pd.citations.foldl (processEntry pid mp.paper_id false)
                (pd.references.foldl (processEntry pid mp.paper_id true)
                  ⟨db0, st.edges, 0, 0, false⟩)).crashed = true
            · rw [if_pos hcr]
              exact hl2
            · rw [if_neg hcr]
              exact hl2
  unfold process_main_paper
  cases hfind : dbFind st.papers_db pid with
  | none => simpa using hfetch
  | some p0 =>
      by_cases hm : p0.is_main
      · simp only [hm, if_true]
        exact ⟨h1, h2⟩
      · simp only [hm, if_false]
        simpa using hfetch

/-! ### Filtering a payload by one identifier -/

theorem entryIds_filter (l : List PaperMeta) (n : String) :
    entryIds (l.filter (fun e => e.paperId != some n)) =
      (entryIds l).filter (fun x => x != n) := by
  induction l with
  | nil => rfl
  | cons e rest ih =>
      cases hid : validId e.paperId with
      | none =>
          have hids : entryIds (e :: rest) = entryIds rest :=
            entryIds_cons_none _ _ hid
          by_cases hp : (e.paperId != some n) = true
          · rw [@List.filter_cons_of_pos _ (fun e => e.paperId != some n) e rest hp,
              entryIds_cons_none _ _ hid, ih, hids]
          · rw [@List.filter_cons_of_neg _ (fun e => e.paperId != some n) e rest hp,
              ih, hids]
      | some i =>
          obtain ⟨hpid, hine⟩ := validId_eq_some hid
          by_cases hin : i = n
          · subst hin
            have hp : ¬(e.paperId != some i) = true := by
              rw [hpid]; simp
            rw [@List.filter_cons_of_neg _ (fun e => e.paperId != some i) e rest hp,
              ih, entryIds_cons_some _ _ hid]
            rw [@List.filter_cons_of_neg _ (fun x => x != i) i (entryIds rest)
              (by simp)]
          · have hp : (e.paperId != some n) = true := by
              rw [hpid]
              simp only [bne_iff_ne, ne_eq, Option.some.injEq]
              exact hin
            rw [@List.filter_cons_of_pos _ (fun e => e.paperId != some n) e rest hp,
              entryIds_cons_some _ _ hid, ih, entryIds_cons_some _ _ hid]
            rw [@List.filter_cons_of_pos _ (fun x => x != n) i (entryIds rest)
              (by simp [hin])]

theorem map_sortPair_filter (pid n : String) (l : List String) :
    (l.filter (fun x => x != n)).map (sortPair pid) =
      (l.map (sortPair pid)).filter (fun y => y != sortPair pid n) := by
  induction l with
  | nil => rfl
  | cons x rest ih =>
      by_cases hx : x = n
      · subst hx
        rw [@List.filter_cons_of_neg _ (fun y => y != x) x rest (by simp),
          List.map_cons,
          @List.filter_cons_of_neg _ (fun y => y != sortPair pid x)
            (sortPair pid x) (rest.map (sortPair pid)) (by simp), ih]
      · rw [@List.filter_cons_of_pos _ (fun y => y != n) x rest (by simp [hx]),
          List.map_cons, List.map_cons,
          @List.filter_cons_of_pos _ (fun y => y != sortPair pid n)
            (sortPair pid x) (rest.map (sortPair pid)) ?_, ih]
        simp only [bne_iff_ne, ne_eq]
        intro hcontra
        exact hx ((sortPair_eq_sortPair_iff pid x n).mp hcontra)

/-! ### Where edges can come from -/

theorem foldl_processEntry_edges_subset (paper_id mainPid : String)
    (isRef : Bool) (entries : List PaperMeta) (s : LoopSt) :
    ∀ e ∈ (entries.foldl (processEntry paper_id mainPid isRef) s).edges,
      e ∈ s.edges ∨ ∃ i entry, entry ∈ entries ∧
        validId entry.paperId = some i ∧ e = sortPair paper_id i := by
  induction entries generalizing s with
  | nil => exact fun e he => Or.inl he
  | cons entry rest ih =>
      rw [List.foldl_cons]
      intro e he
      rcases ih (processEntry paper_id mainPid isRef s entry) e he with
        h | ⟨i, entry2, hmem, hv, heq⟩
      · rcases processEntry_edges_plain paper_id mainPid isRef s entry with
          heq2 | ⟨i, hv, _, heq2⟩
        · rw [heq2] at h
          exact Or.inl h
        · rw [heq2] at h
          rcases List.mem_append.mp h with h | h
          · exact Or.inl h
          · simp only [List.mem_singleton] at h
            exact Or.inr ⟨i, entry, List.mem_cons_self _ _, hv, h⟩
      · exact Or.inr ⟨i, entry2, List.mem_cons_of_mem _ hmem, hv, heq⟩

/-- Every edge present after an ingestion call was either already there
or is the canonical pair of the requested root with a usable identifier
from the payload lists. -/
theorem process_edges_subset (st : GraphState) (pid : String)
    (fetched : Option PaperData) :
    ∀ e ∈ (process_main_paper st pid fetched).1.edges,
      e ∈ st.edges ∨ ∃ pd i entry, fetched = some pd ∧
        (entry ∈ pd.references ∨ entry ∈ pd.citations) ∧
        validId entry.paperId = some i ∧ e = sortPair pid i := by
  have hfetch : ∀ e ∈ (process_fetch st pid fetched).1.edges,
      e ∈ st.edges ∨ ∃ pd i entry, fetched = some pd ∧
        (entry ∈ pd.references ∨ entry ∈ pd.citations) ∧
        validId entry.paperId = some i ∧ e = sortPair pid i := by
    cases fetched with
    | none => exact fun e he => Or.inl he
    | some pd =>
        rcases hadd : add_paper_to_db st.papers_db pd.meta true with ⟨mpOpt, db0⟩
        cases mpOpt with
        | none =>
            simp only [process_fetch, hadd]
            exact fun e he => Or.inl he
        | some mp =>
            simp only [process_fetch, hadd]
            intro e he
            have he2 : e ∈ (pd.citations.foldl (processEntry pid mp.paper_id false)
                (pd.references.foldl (processEntry pid mp.paper_id true)
                  ⟨db0, st.edges, 0, 0, false⟩)).edges := by
              by_cases hcr : (pd.citations.foldl (processEntry pid mp.paper_id false)
                  (pd.references.foldl (processEntry pid mp.paper_id true)
                    ⟨db0, st.edges, 0, 0, false⟩)).crashed = true
              · rw [if_pos hcr] at he
                exact he
              · rw [if_neg hcr] at he
                exact he
            rcases foldl_processEntry_edges_subset pid mp.paper_id false
              pd.citations _ e he2 with h | ⟨i, entry, hmem, hv, heq⟩
            · rcases foldl_processEntry_edges_subset pid mp.paper_id true
                pd.references _ e h with h2 | ⟨i, entry, hmem, hv, heq⟩
              · exact Or.inl h2
              · exact Or.inr ⟨pd, i, entry, rfl, Or.inl hmem, hv, heq⟩
            · exact Or.inr ⟨pd, i, entry, rfl, Or.inr hmem, hv, heq⟩
  unfold process_main_paper
  cases hfind : dbFind st.papers_db pid with
  | none => simpa using hfetch
  | some p0 =>
      by_cases hm : p0.is_main
      · simp only [hm, if_true]
        exact fun e he => Or.inl he
      · simp only [hm, if_false]
        simpa using hfetch

/-! ### Claim theorems -/

/-- Claim C1, counterexample: in a state where R is already stored with
is_main true, re-ingesting R returns a result whose success flag is
false, while the claim promises a success result. -/
theorem C1_counterexample :
    (dbFind stMainR.papers_db "R").map Paper.is_main = some true ∧
    (okResult (process_main_paper stMainR "R" none).2).map IngestResult.success =
      some false := by
  decide

/-- Claim C1 (amended): for every root identifier already present in
the Store with is_main true, ingest short-circuits: it mutates nothing,
returns new_paper_count = 0 and new_edge_count = 0 and the projection
of the existing record, issues no provider fetch (the call does not
depend on what the provider would answer), but the returned result has
success = false with message Paper already added, not success = true. -/
theorem C1_short_circuit_amended (st : GraphState) (pid : String) (p : Paper)
    (fetched fetched2 : Option PaperData)
    (hfind : dbFind st.papers_db pid = some p) (hmain : p.is_main = true) :
    process_main_paper st pid fetched =
      (st, Outcome.ok
        { success := false
          message := "Paper already added"
          paper := some (paper_to_dict p)
          new_papers := 0
          new_edges := 0 }) ∧
    process_main_paper st pid fetched = process_main_paper st pid fetched2 := by
  constructor
  · exact process_short_circuit st pid hfind hmain fetched
  · rw [process_short_circuit st pid hfind hmain fetched,
      process_short_circuit st pid hfind hmain fetched2]

/-- Claim C1, witness: the amended statement applied to the concrete
state in which R was ingested with no neighbors. -/
theorem C1_witness :
    process_main_paper stMainR "R" none =
      (stMainR, Outcome.ok
        { success := false
          message := "Paper already added"
          paper := some (paper_to_dict (mkPaper (sampleMeta "R") "R" true))
          new_papers := 0
          new_edges := 0 }) ∧
    process_main_paper stMainR "R" none =
      process_main_paper stMainR "R" (some pdC7) :=
  C1_short_circuit_amended stMainR "R" (mkPaper (sampleMeta "R") "R" true)
    none (some pdC7) (by decide) (by decide)

/-- Claim C2, counterexample: ingesting from the empty state a root R
whose reference list contains R itself yields a reachable state in
which the stored record of R carries edge_count 2 while exactly one
edge of the Edge Set contains R. -/
theorem C2_counterexample :
    Reachable stSelf ∧
    (dbFind stSelf.papers_db "R").map Paper.edge_count = some 2 ∧
    degree stSelf.edges "R" = 1 := by
  refine ⟨?_, by decide, by decide⟩
  exact Reachable.ingest emptyState "R" (some pdSelf) Reachable.init

/-- Claim C2 (amended): in every state reachable by ingest and reset
operations in which each successful provider payload carries the
requested identifier as its own and no reference or citation entry
carries the requested root identifier itself, every stored Paper has
edge_count equal to the number of edges of the Edge Set containing its
identifier. -/
theorem C2_consistency {st : GraphState} (h : ReachableGood st) :
    ∀ kp ∈ st.papers_db, kp.2.edge_count = degree st.edges kp.1 := by
  obtain ⟨hnd, _, _, _, hcnt⟩ := reachableGood_inv h
  intro kp hkp
  exact hcnt kp.1 kp.2 (dbFind_of_mem_nodup hnd hkp)

/-- Claim C2, witness: counter consistency read off the concrete state
reached by ingesting the four-paper scenario. -/
theorem C2_witness :
    (dbFind stC7.papers_db "B").map Paper.edge_count =
      some (degree stC7.edges "B") := by
  have hr : ReachableGood stC7 :=
    ReachableGood.ingest emptyState "R" (some pdC7) ReachableGood.init (by decide)
  have h := C2_consistency hr
  cases hfind : dbFind stC7.papers_db "B" with
  | none => exact absurd hfind (by decide)
  | some p =>
      have hmem : ("B", p) ∈ stC7.papers_db := dbFind_mem hfind
      have h2 := h ("B", p) hmem
      rw [Option.map_some', h2]

/-- Claim C3, counterexample: a provider response whose reference list
contains the root identifier itself makes the Ingestion Engine insert
the self-loop pair into the Edge Set. -/
theorem C3_counterexample :
    stSelf = (process_main_paper emptyState "R" (some pdSelf)).1 ∧
    ("R", "R") ∉ emptyState.edges ∧
    ("R", "R") ∈ stSelf.edges := by
  exact ⟨rfl, by decide, by decide⟩

/-- Claim C3 (amended): for every ingest call whose provider payload
(if any) has no reference or citation entry carrying the root
identifier itself, every edge of the resulting Edge Set either was
already present before the call or is not a self-loop. -/
theorem C3_no_self_loop (st : GraphState) (pid : String)
    (fetched : Option PaperData)
    (hr : ∀ pd, fetched = some pd →
      (∀ r ∈ pd.references, r.paperId ≠ some pid) ∧
      (∀ c ∈ pd.citations, c.paperId ≠ some pid)) :
    ∀ e ∈ (process_main_paper st pid fetched).1.edges,
      e ∈ st.edges ∨ e.1 ≠ e.2 := by
  intro e he
  rcases process_edges_subset st pid fetched e he with
    h | ⟨pd, i, entry, hf, hmem, hv, heq⟩
  · exact Or.inl h
  · right
    obtain ⟨hpid, _⟩ := validId_eq_some hv
    have hi : pid ≠ i := by
      intro hcontra
      rcases hmem with hm | hm
      · exact (hr pd hf).1 entry hm (hcontra ▸ hpid)
      · exact (hr pd hf).2 entry hm (hcontra ▸ hpid)
    rw [heq]
    exact sortPair_fst_ne_snd hi

/-- Claim C3, witness: the amended statement applied to the four-paper
scenario, at the edge between A and R. -/
theorem C3_witness :
    ("A", "R") ∈ emptyState.edges ∨ ("A", "R").1 ≠ ("A", "R").2 := by
  have h := C3_no_self_loop emptyState "R" (some pdC7)
    (by
      intro pd hpd
      cases hpd
      exact ⟨by decide, by decide⟩)
  exact h ("A", "R") (by decide)

/-- Claim C4, counterexample: A is created as a neighbor with an empty
references sequence; a later ingest of A as a root changes the stored
references sequence of A, a field the claim says never changes. -/
theorem C4_counterexample :
    Reachable stC4b ∧
    stC4b = (process_main_paper stC4a "A" (some pdA)).1 ∧
    (dbFind stC4a.papers_db "A").map Paper.references = some [] ∧
    (dbFind stC4b.papers_db "A").map Paper.references = some ["B2"] := by
  refine ⟨?_, rfl, by decide, by decide⟩
  exact Reachable.ingest stC4a "A" (some pdA)
    (Reachable.ingest emptyState "R" (some pdC7) Reachable.init)

/-- Claim C4 (amended): across every ingest operation, every stored
record survives, its paper_id, title, authors, year, publication_date,
citation_count and url never change, is_main only flips to true,
edge_count only grows, and the references and citations sequences only
receive appended elements. -/
theorem C4_frame (st : GraphState) (pid : String) (fetched : Option PaperData)
    (k : String) (p : Paper) (hp : dbFind st.papers_db k = some p) :
    ∃ q, dbFind (process_main_paper st pid fetched).1.papers_db k = some q ∧
      q.paper_id = p.paper_id ∧ q.title = p.title ∧ q.authors = p.authors ∧
      q.year = p.year ∧ q.publication_date = p.publication_date ∧
      q.citation_count = p.citation_count ∧ q.url = p.url ∧
      (p.is_main = true → q.is_main = true) ∧
      p.edge_count ≤ q.edge_count ∧
      (∃ t, q.references = p.references ++ t) ∧
      (∃ t, q.citations = p.citations ++ t) := by
  obtain ⟨q, hq, he⟩ := process_evolves st pid fetched hp
  obtain ⟨e1, e2, e3, e4, e5, e6, e7, e8, e9, e10, e11⟩ := he
  exact ⟨q, hq, e1, e2, e3, e4, e5, e6, e7, e8, e9, e10, e11⟩

/-- Claim C4, witness: the frame statement applied to the stored record
of A across the ingest of A, observed on the title field. -/
theorem C4_witness :
    (dbFind stC4b.papers_db "A").map Paper.title =
      (dbFind stC4a.papers_db "A").map Paper.title := by
  cases hfind : dbFind stC4a.papers_db "A" with
  | none => exact absurd hfind (by decide)
  | some p =>
      obtain ⟨q, hq, _, ht, _⟩ := C4_frame stC4a "A" (some pdA) "A" p hfind
      have hq2 : dbFind stC4b.papers_db "A" = some q := hq
      rw [hq2, Option.map_some', Option.map_some', ht]

/-- Claim C5: upserting a record whose identifier is already stored
leaves every field of the stored record unchanged except is_main, which
becomes the OR of its old value and the as_main argument (so a true
flag can never be cleared), leaves every other stored record untouched,
and returns the existing record. -/
theorem C5_upsert_existing (db : List (String × Paper)) (meta : PaperMeta)
    (as_main : Bool) (pid : String) (p : Paper)
    (hid : meta.paperId = some pid) (hpne : pid ≠ "")
    (hfind : dbFind db pid = some p) :
    (add_paper_to_db db meta as_main).1 =
      some { p with is_main := p.is_main || as_main } ∧
    dbFind (add_paper_to_db db meta as_main).2 pid =
      some { p with is_main := p.is_main || as_main } ∧
    (∀ k, k ≠ pid → dbFind (add_paper_to_db db meta as_main).2 k = dbFind db k) ∧
    (p.is_main = true →
      ({ p with is_main := p.is_main || as_main } : Paper).is_main = true) := by
  rw [add_paper_to_db_existing hid hpne hfind as_main]
  cases as_main
  · have hor : ({ p with is_main := p.is_main || false } : Paper) = p := by
      simp only [Bool.or_false]
    rw [hor]
    exact ⟨rfl, hfind, fun k _ => rfl, fun h => h⟩
  · have hor : ({ p with is_main := p.is_main || true } : Paper) =
        { p with is_main := true } := by
      simp only [Bool.or_true]
    rw [hor]
    refine ⟨rfl, ?_, ?_, fun _ => rfl⟩
    · show dbFind (dbUpdate db pid (fun q => { q with is_main := true })) pid =
        some { p with is_main := true }
      rw [dbFind_dbUpdate, if_pos rfl, hfind]
      rfl
    · intro k hk
      show dbFind (dbUpdate db pid (fun q => { q with is_main := true })) k =
        dbFind db k
      rw [dbFind_dbUpdate, if_neg hk]

/-- Claim C5, witness: re-upserting R (already stored as main) with
as_main false returns the stored record and changes nothing. -/
theorem C5_witness :
    (add_paper_to_db stC7.papers_db (sampleMeta "R") false).1 =
      dbFind stC7.papers_db "R" ∧
    dbFind (add_paper_to_db stC7.papers_db (sampleMeta "R") false).2 "R" =
      dbFind stC7.papers_db "R" ∧
    dbFind (add_paper_to_db stC7.papers_db (sampleMeta "R") false).2 "B" =
      dbFind stC7.papers_db "B" := by
  cases hfind : dbFind stC7.papers_db "R" with
  | none => exact absurd hfind (by decide)
  | some p =>
      obtain ⟨h1, h2, h3, _⟩ := C5_upsert_existing stC7.papers_db
        (sampleMeta "R") false "R" p (by decide) (by decide) hfind
      have hor : ({ p with is_main := p.is_main || false } : Paper) = p := by
        simp only [Bool.or_false]
      refine ⟨?_, ?_, h3 "B" (by decide)⟩
      · rw [h1, hor]
      · rw [h2, hor]

/-- Claim C6: when the provider fetch fails, or the payload carries no
usable identifier, the call reports a failure with a descriptive
message, zero counters, and leaves the state exactly as it was. -/
theorem C6_failure (st : GraphState) (pid : String)
    (fetched : Option PaperData)
    (h : fetched = none ∨ ∃ pd, fetched = some pd ∧ strFalsy pd.meta.paperId = true) :
    (process_main_paper st pid fetched).1 = st ∧
    ∃ r, (process_main_paper st pid fetched).2 = Outcome.ok r ∧
      r.success = false ∧ r.message ≠ "" ∧ r.new_papers = 0 ∧ r.new_edges = 0 :=
  process_failure st pid fetched h

/-- Claim C6, witness: a failed fetch from the empty state. -/
theorem C6_witness :
    (process_main_paper emptyState "R" none).1 = emptyState ∧
    (okResult (process_main_paper emptyState "R" none).2).map
      IngestResult.success = some false := by
  obtain ⟨h1, r, h2, h3, _⟩ := C6_failure emptyState "R" none (Or.inl rfl)
  refine ⟨h1, ?_⟩
  rw [h2]
  simp only [okResult, Option.map_some', h3]

/-- Claim C7: the four-paper scenario: ingesting root R with references
[A, B] and citations [B, C] from the empty state stores exactly R, A,
B, C, reports 3 new papers and 3 new edges, records exactly the three
canonical pairs, gives R edge_count 3 and B edge_count 1, and stats
reports 4 papers, 1 main paper and 3 edges. -/
theorem C7_scenario :
    stC7.papers_db.map Prod.fst = ["R", "A", "B", "C"] ∧
    stC7.edges = [("A", "R"), ("B", "R"), ("C", "R")] ∧
    (okResult (process_main_paper emptyState "R" (some pdC7)).2).map
      IngestResult.new_papers = some 3 ∧
    (okResult (process_main_paper emptyState "R" (some pdC7)).2).map
      IngestResult.new_edges = some 3 ∧
    (okResult (process_main_paper emptyState "R" (some pdC7)).2).map
      IngestResult.success = some true ∧
    (dbFind stC7.papers_db "R").map Paper.edge_count = some 3 ∧
    (dbFind stC7.papers_db "B").map Paper.edge_count = some 1 ∧
    stats stC7 = ⟨4, 1, 3⟩ := by
  decide

theorem count_pairs_bridge (a : String × String) (l : List (String × String)) :
    l.count a = @List.count _ instBEqOfDecidableEq a l := by
  unfold List.count
  refine List.countP_congr ?_
  intro x _
  show (x == a) = true ↔ decide (x = a) = true
  simp

/-- Claim C8: when the same neighbor n (distinct from the root) occurs
in both the reference list and the citation list of an ingested root,
n is stored exactly once, the canonical pair of root and n appears
exactly once in the Edge Set, new_edge_count is incremented exactly
once for that pair (the run counts exactly one more new edge than the
same run with every n entry removed), new_paper_count counts n at most
once, and n is appended to both the references and the citations
sequences of the stored root record. -/
theorem C8_both_lists (st : GraphState) (pid n : String) (pd : PaperData)
    (hnd : (st.papers_db.map Prod.fst).Nodup)
    (hkm : ∀ kp ∈ st.papers_db, kp.2.paper_id = kp.1)
    (hednd : st.edges.Nodup)
    (hmeta : pd.meta.paperId = some pid) (hpne : pid ≠ "")
    (hn : n ≠ pid)
    (hnr : n ∈ entryIds pd.references) (hnc : n ∈ entryIds pd.citations)
    (hnm : ∀ p0, dbFind st.papers_db pid = some p0 → p0.is_main = false)
    (hedge : sortPair pid n ∉ st.edges) :
    ((process_main_paper st pid (some pd)).1.papers_db.map Prod.fst).count n = 1 ∧
    ((process_main_paper st pid (some pd)).1.edges).count (sortPair pid n) = 1 ∧
    (okResult (process_main_paper st pid (some pd)).2).map IngestResult.new_edges =
      (okResult (process_main_paper st pid (some (removeId n pd))).2).map
        (fun r => r.new_edges + 1) ∧
    (∀ a b,
      (okResult (process_main_paper st pid (some pd)).2).map
        IngestResult.new_papers = some a →
      (okResult (process_main_paper st pid (some (removeId n pd))).2).map
        IngestResult.new_papers = some b →
      a ≤ b + 1) ∧
    (∃ m, dbFind (process_main_paper st pid (some pd)).1.papers_db pid = some m ∧
      n ∈ m.references ∧ n ∈ m.citations) := by
  obtain ⟨hout, hkeys, hedges, m, hm, hmr, hmc⟩ :=
    process_some_char st pid pd hkm hmeta hpne hnm
  obtain ⟨hout2, _, _, _⟩ :=
    process_some_char st pid (removeId n pd) hkm hmeta hpne hnm
  have hnodups := process_nodup st pid (some pd) hnd hednd
  have hids2 : entryIds (removeId n pd).references ++
      entryIds (removeId n pd).citations =
      (entryIds pd.references ++ entryIds pd.citations).filter
        (fun x => x != n) := by
    show entryIds (pd.references.filter (fun e => e.paperId != some n)) ++
        entryIds (pd.citations.filter (fun e => e.paperId != some n)) = _
    rw [entryIds_filter, entryIds_filter, List.filter_append]
  have hmemids : n ∈ entryIds pd.references ++ entryIds pd.citations :=
    List.mem_append_left _ hnr
  refine ⟨?_, ?_, ?_, ?_, ⟨m, hm, ?_, ?_⟩⟩
  · exact List.count_eq_one_of_mem hnodups.1
      ((hkeys n).mpr (Or.inr hmemids))
  · rw [count_pairs_bridge]
    exact List.count_eq_one_of_mem hnodups.2
      ((hedges (sortPair pid n)).mpr
        (Or.inr (List.mem_map_of_mem (sortPair pid) hmemids)))
  · rw [hout, hout2]
    simp only [okResult, Option.map_some', Option.some.injEq]
    have hpairs : (entryIds (removeId n pd).references ++
        entryIds (removeId n pd).citations).map (sortPair pid) =
        ((entryIds pd.references ++ entryIds pd.citations).map
          (sortPair pid)).filter (fun y => y != sortPair pid n) := by
      rw [hids2, map_sortPair_filter]
    rw [hpairs]
    rw [countNew_filter_ne ((entryIds pd.references ++
      entryIds pd.citations).map (sortPair pid)) st.edges (sortPair pid n)]
    rw [if_pos ⟨List.mem_map_of_mem (sortPair pid) hmemids, hedge⟩]
    congr 2
    refine List.filter_congr ?_
    intro x _
    show (!decide (x = sortPair pid n)) = (x != sortPair pid n)
    rw [Bool.eq_iff_iff]
    simp
  · intro a b ha hb
    rw [hout] at ha
    rw [hout2] at hb
    simp only [okResult, Option.map_some', Option.some.injEq] at ha hb
    rw [← ha, ← hb, hids2]
    rw [countNew_filter_ne (entryIds pd.references ++ entryIds pd.citations)
      (pid :: st.papers_db.map Prod.fst) n]
    by_cases hif : n ∈ entryIds pd.references ++ entryIds pd.citations ∧
        n ∉ pid :: st.papers_db.map Prod.fst
    · rw [if_pos hif]
    · rw [if_neg hif]
      omega
  · rw [hmr]
    exact List.mem_append_right _ hnr
  · rw [hmc]
    exact List.mem_append_right _ hnc

/-- Claim C8, witness: root R with B in both lists, ingested from the
empty state. -/
theorem C8_witness :
    ((process_main_paper emptyState "R" (some pdC8)).1.papers_db.map
      Prod.fst).count "B" = 1 ∧
    ((process_main_paper emptyState "R" (some pdC8)).1.edges).count
      (sortPair "R" "B") = 1 := by
  obtain ⟨h1, h2, _, _, _⟩ := C8_both_lists emptyState "R" "B" pdC8
    (by decide)
    (fun kp hkp => absurd hkp (List.not_mem_nil kp))
    (by decide) (by decide) (by decide) (by decide) (by decide) (by decide)
    (by intro p0 h; simp [emptyState, dbFind] at h)
    (by decide)
  exact ⟨h1, h2⟩

/-- Claim C9: in every reachable state, edge-set membership of an
unordered pair is symmetric, and at most one entry of the edge set
represents any unordered pair of identifiers, no matter how many
operations produced the state. -/
theorem C9_symmetric_unique {st : GraphState} (h : Reachable st)
    (a b : String) :
    edgeContains st.edges a b = edgeContains st.edges b a ∧
    st.edges.countP (fun e => sortPair e.1 e.2 == sortPair a b) ≤ 1 := by
  obtain ⟨hnd, hcanon⟩ := reachable_edgesWF h
  constructor
  · simp [edgeContains, sortPair_comm a b]
  · have hcount : st.edges.countP
        (fun e => sortPair e.1 e.2 == sortPair a b) =
        st.edges.count (sortPair a b) := by
      unfold List.count
      refine List.countP_congr ?_
      intro e he
      rw [hcanon e he]
    rw [hcount, count_pairs_bridge]
    exact List.nodup_iff_count_le_one.mp hnd (sortPair a b)

/-- Claim C9, witness: the state reached by ingesting the C7 payload
from the empty state, at the pair A, R. -/
theorem C9_witness :
    edgeContains stC7.edges "A" "R" = edgeContains stC7.edges "R" "A" ∧
    stC7.edges.countP (fun e => sortPair e.1 e.2 == sortPair "A" "R") ≤ 1 :=
  C9_symmetric_unique
    (Reachable.ingest emptyState "R" (some pdC7) Reachable.init) "A" "R"

theorem filter_bne_pin (n : String × String) (l : List (String × String)) :
    List.filter
      (fun x => @bne _ (@instBEqOfDecidableEq _ instDecidableEqProd) x n) l =
      List.filter (fun x => x != n) l := by
  refine List.filter_congr ?_
  intro x _
  show (!decide (x = n)) = (x != n)
  rw [Bool.eq_iff_iff]
  simp

/-- Claim C10: within one ingest call, a neighbor identifier occurring
twice in the reference list is appended twice to the stored root record,
while new_paper_count and new_edge_count each exceed the counts of the
same run with every occurrence of that identifier removed by at most
one. -/
theorem C10_duplicate_refs (st : GraphState) (pid n : String)
    (pd : PaperData)
    (hkm : ∀ kp ∈ st.papers_db, kp.2.paper_id = kp.1)
    (hmeta : pd.meta.paperId = some pid) (hpne : pid ≠ "")
    (hcnt : 2 ≤ (entryIds pd.references).count n)
    (hnm : ∀ p0, dbFind st.papers_db pid = some p0 → p0.is_main = false) :
    (∃ m, dbFind (process_main_paper st pid (some pd)).1.papers_db pid =
      some m ∧ 2 ≤ m.references.count n) ∧
    (∀ a b,
      (okResult (process_main_paper st pid (some pd)).2).map
        IngestResult.new_papers = some a →
      (okResult (process_main_paper st pid (some (removeId n pd))).2).map
        IngestResult.new_papers = some b →
      a ≤ b + 1) ∧
    (∀ a b,
      (okResult (process_main_paper st pid (some pd)).2).map
        IngestResult.new_edges = some a →
      (okResult (process_main_paper st pid (some (removeId n pd))).2).map
        IngestResult.new_edges = some b →
      a ≤ b + 1) := by
  obtain ⟨hout, hkeys, hedges, m, hm, hmr, hmc⟩ :=
    process_some_char st pid pd hkm hmeta hpne hnm
  obtain ⟨hout2, _, _, _⟩ :=
    process_some_char st pid (removeId n pd) hkm hmeta hpne hnm
  have hids2 : entryIds (removeId n pd).references ++
      entryIds (removeId n pd).citations =
      (entryIds pd.references ++ entryIds pd.citations).filter
        (fun x => x != n) := by
    show entryIds (pd.references.filter (fun e => e.paperId != some n)) ++
        entryIds (pd.citations.filter (fun e => e.paperId != some n)) = _
    rw [entryIds_filter, entryIds_filter, List.filter_append]
  refine ⟨⟨m, hm, ?_⟩, ?_, ?_⟩
  · rw [hmr, List.count_append]
    exact hcnt.trans (Nat.le_add_left _ _)
  · intro a b ha hb
    rw [hout] at ha
    rw [hout2] at hb
    simp only [okResult, Option.map_some', Option.some.injEq] at ha hb
    rw [← ha, ← hb, hids2]
    rw [countNew_filter_ne (entryIds pd.references ++ entryIds pd.citations)
      (pid :: st.papers_db.map Prod.fst) n]
    by_cases hif : n ∈ entryIds pd.references ++ entryIds pd.citations ∧
        n ∉ pid :: st.papers_db.map Prod.fst
    · rw [if_pos hif]
    · rw [if_neg hif]
      omega
  · intro a b ha hb
    rw [hout] at ha
    rw [hout2] at hb
    simp only [okResult, Option.map_some', Option.some.injEq] at ha hb
    have hpairs : (entryIds (removeId n pd).references ++
        entryIds (removeId n pd).citations).map (sortPair pid) =
        ((entryIds pd.references ++ entryIds pd.citations).map
          (sortPair pid)).filter (fun y => y != sortPair pid n) := by
      rw [hids2, map_sortPair_filter]
    rw [← ha, ← hb, hpairs]
    rw [countNew_filter_ne ((entryIds pd.references ++
      entryIds pd.citations).map (sortPair pid)) st.edges (sortPair pid n)]
    rw [filter_bne_pin]
    by_cases hif : sortPair pid n ∈ (entryIds pd.references ++
        entryIds pd.citations).map (sortPair pid) ∧
        sortPair pid n ∉ st.edges
    · rw [if_pos hif]
    · rw [if_neg hif]
      omega

/-- Claim C10, witness: root R whose reference list holds B twice,
ingested from the empty state. -/
theorem C10_witness :
    2 ≤ (entryIds pdC10.references).count "B" ∧
    ∃ m, dbFind (process_main_paper emptyState "R" (some pdC10)).1.papers_db
      "R" = some m ∧ 2 ≤ m.references.count "B" := by
  obtain ⟨h1, _, _⟩ := C10_duplicate_refs emptyState "R" "B" pdC10
    (fun kp hkp => absurd hkp (List.not_mem_nil kp))
    (by decide) (by decide) (by decide)
    (by intro p0 h; simp [emptyState, dbFind] at h)
  exact ⟨by decide, h1⟩

end PaperExplorer
